import Mathlib

/-!
# Verification of the serai coordinator core against its specification

This development gives a shallow embedding of the relevant parts of the
repository (the tributary scanner, the processor key-gen driver, the
bulletproof25519 point arithmetic, the bulletproofs-plus arithmetic circuit
and bit gadget, and the curve tree) and settles the specification claims
about them.

Machine integers are modelled as `Nat`/`ZMod p`; fallible code returns
`Option`/`Except`, with `none`/`.error` standing for a Rust panic.
-/

namespace Tributary

/-! ## Tributary scanner (coordinator/src/tributary/scanner.rs)

`TributaryDb` and `TributarySpec` are not under the provided sources; they
are modelled from the spec (§3 data model):
* `AttemptState` keyed by `(label, id, attempt, signer)` holding the raw
  bytes, with the running count of distinct signers derived from the map;
* `RecognizedIds` keyed by zone (the zone's label string is in bijection
  with the zone for the Batch/Sign zones, so we key by the zone itself);
* `CurrentAttempt` per id, starting at 0;
* `HandledEvent` per `(block_hash, event_index)`;
* `CohortSpec`: ordered validator list with the bijection
  `i(pk) = position + 1`.
All state is for one fixed cohort, so the `genesis` key component is
dropped. 32-byte values (ids, hashes, keys) are modelled as `Nat`. -/

/-- The `Zone` enum from the scanner. -/
inductive Zone where
  | dkg
  | batch
  | sign
deriving DecidableEq, Repr

/-- Modelled from the spec: the per-cohort database state of `TributaryDb`
(only the tables the scanner reads and writes). -/
structure DbCore where
  dataMap : List ((String × Nat × Nat × Nat) × List Nat)
  attempts : List (Nat × Nat)
  recognized : List (Zone × Nat)
  batchIds : List (Nat × Nat)
  planIdsMap : List (Nat × List Nat)
deriving DecidableEq, Repr

/-- Modelled from the spec: look up the stored payload for
`(label, id, attempt, signer)` (`TributaryDb::data`). -/
def DbCore.data (db : DbCore) (label : String) (id attempt signer : Nat) :
    Option (List Nat) :=
  (db.dataMap.find? (fun kv => kv.1 = (label, id, attempt, signer))).map (·.2)

/-- The number of distinct signers with stored data for
`(label, id, attempt)`. -/
def DbCore.countFor (db : DbCore) (label : String) (id attempt : Nat) : Nat :=
  (db.dataMap.filter
    (fun kv => kv.1.1 = label ∧ kv.1.2.1 = id ∧ kv.1.2.2.1 = attempt)).length

/-- Modelled from the spec: store a payload and return the running count of
distinct signers for `(label, id, attempt)` (`TributaryDb::set_data`). -/
def DbCore.setData (db : DbCore) (label : String) (id attempt signer : Nat)
    (bytes : List Nat) : Nat × DbCore :=
  let key := (label, id, attempt, signer)
  let m := (key, bytes) :: db.dataMap.filter (fun kv => kv.1 ≠ key)
  let db := { db with dataMap := m }
  (db.countFor label id attempt, db)

/-- Modelled from the spec: the monotone `CurrentAttempt` counter, 0 if the
id has not been seen (`TributaryDb::attempt`). -/
def DbCore.attempt (db : DbCore) (id : Nat) : Nat :=
  ((db.attempts.find? (fun kv => kv.1 = id)).map (·.2)).getD 0

/-- Modelled from the spec: membership in `RecognizedIds`
(`TributaryDb::recognized_id`). -/
def DbCore.recognizedId (db : DbCore) (zone : Zone) (id : Nat) : Bool :=
  (zone, id) ∈ db.recognized

/-- Modelled from the spec: insert into `RecognizedIds`
(`TributaryDb::recognize_id`). -/
def DbCore.recognizeId (db : DbCore) (zone : Zone) (id : Nat) : DbCore :=
  { db with recognized := (zone, id) :: db.recognized }

/-- Modelled from the spec: `TributaryDb::batch_id`. -/
def DbCore.batchId (db : DbCore) (block : Nat) : Option Nat :=
  (db.batchIds.find? (fun kv => kv.1 = block)).map (·.2)

/-- Modelled from the spec: `TributaryDb::plan_ids`. -/
def DbCore.planIds (db : DbCore) (block : Nat) : Option (List Nat) :=
  (db.planIdsMap.find? (fun kv => kv.1 = block)).map (·.2)

/-- Modelled from the spec: `TributarySpec` / `CohortSpec`: the ordered
validator list and the threshold.  `validators()` returns the list in
canonical order; `i(pk)` is the bijection onto `{1..n}` given by position;
`n()` is the validator count. -/
structure Cohort where
  validators : List Nat
  threshold : Nat
deriving DecidableEq, Repr

def Cohort.n (spec : Cohort) : Nat := spec.validators.length

def Cohort.t (spec : Cohort) : Nat := spec.threshold

/-- `spec.i(validator)`: 1-based index in the canonical validator order. -/
def Cohort.i (spec : Cohort) (v : Nat) : Option Nat :=
  (spec.validators.indexOf? v).map (· + 1)

/-- Result of the scanner's `handle` closure.  `panic` covers the `todo!()`
and `assert` paths. -/
inductive HandleOut where
  | panic (msg : String)
  | nothing
  | ready (data : List (Nat × List Nat))
deriving DecidableEq, Repr

/-- The aggregation map built when the needed count is reached: iterate
`spec.validators()` in canonical order; the current signer contributes the
just-submitted bytes, other validators their stored bytes, validators
without data are skipped (`continue`). -/
def buildMap (spec : Cohort) (db : DbCore) (label : String)
    (id attempt : Nat) (bytes : List Nat) (signer : Nat) :
    List (Nat × List Nat) :=
  spec.validators.filterMap (fun v =>
    let idx := (spec.i v).getD 0
    if v = signer then some (idx, bytes)
    else match db.data label id attempt v with
      | some d => some (idx, d)
      | none => none)

/-- Steps 2-5 of the `handle` closure (after the zone/id admission check):
duplicate/equivocation check, attempt comparison, storage, and threshold
aggregation. -/
def handleInner (spec : Cohort) (db : DbCore) (label : String) (needed : Nat)
    (id attempt : Nat) (bytes : List Nat) (signer : Nat) :
    HandleOut × DbCore :=
  match db.data label id attempt signer with
  | some d =>
    if d ≠ bytes then
      -- TODO: Full slash (equivocation) in the source is `todo!()`
      (.panic "todo: full slash (equivocation)", db)
    else
      -- TODO: Slash (duplicate); returns None
      (.nothing, db)
  | none =>
    let curr := db.attempt id
    if attempt < curr then
      -- TODO: Slash for being late; returns None
      (.nothing, db)
    else if attempt > curr then
      -- TODO: Full slash in the source is `todo!()`
      (.panic "todo: full slash (attempt from future)", db)
    else
      let (received, db) := db.setData label id attempt signer bytes
      if received = needed then
        let data := buildMap spec db label id attempt bytes signer
        if data.length = needed then (.ready data, db)
        else (.panic "assert_eq: data.len() == needed", db)
      else (.nothing, db)

/-- The scanner's `handle` closure. -/
def handle (spec : Cohort) (db : DbCore) (zone : Zone) (label : String)
    (needed : Nat) (id attempt : Nat) (bytes : List Nat) (signer : Nat) :
    HandleOut × DbCore :=
  if zone = Zone.dkg then
    if id ≠ 0 then
      (.panic "DKG, which shouldn't have IDs, had a non-0 ID", db)
    else handleInner spec db label needed id attempt bytes signer
  else if ¬ db.recognizedId zone id then
    -- TODO: Full slash in the source is `todo!()`
    (.panic "todo: full slash (unrecognized id)", db)
  else handleInner spec db label needed id attempt bytes signer

/-! ### Blocks and replay (`handle_block` / `handle_new_blocks`)

The per-transaction effect (the `match tx` body dispatching into `handle`
and the processor sink) is kept as a parameter `procTx` acting on the
non-marker portion of the database; the marker logic itself (the
`HandledEvent` guard, the per-event atomic transaction, the cursor) is
modelled exactly.  A transaction-with-effects is one event; `event_id`
counts up from 0 per block as in the source. -/

/-- Full scanner database: core tables plus the `HandledEvent` markers and
the `LastBlock` cursor. -/
structure Db (Rest : Type) where
  core : Rest
  handled : List (Nat × Nat)
  lastBlock : Nat
deriving DecidableEq, Repr

/-- `TributaryDb::handled_event`. -/
def Db.handledEvent {Rest} (db : Db Rest) (hash eventId : Nat) : Bool :=
  (hash, eventId) ∈ db.handled

/-- `TributaryDb::handle_event`: set the marker. -/
def Db.handleEvent {Rest} (db : Db Rest) (hash eventId : Nat) : Db Rest :=
  { db with handled := (hash, eventId) :: db.handled }

/-- A finalized log block: its hash and its transactions. -/
structure BlockM (Tx : Type) where
  hash : Nat
  txs : List Tx
deriving DecidableEq, Repr

section Replay

variable {Rest Tx Msg : Type} (procTx : Rest → Tx → Rest × List Msg)

/-- The loop body of `handle_block`: process the remaining transactions of
a block starting at event id `i`.  A handled event is skipped entirely;
otherwise the effect and the marker are applied in one atomic transaction. -/
def handleEvents (hash : Nat) : Db Rest → List Tx → Nat → Db Rest × List Msg
  | db, [], _ => (db, [])
  | db, tx :: rest, i =>
    if db.handledEvent hash i then handleEvents hash db rest (i + 1)
    else
      let (core, msgs) := procTx db.core tx
      let db := Db.handleEvent { db with core := core } hash i
      let (db, more) := handleEvents hash db rest (i + 1)
      (db, msgs ++ more)

/-- `handle_block`. -/
def handleBlock (db : Db Rest) (block : BlockM Tx) : Db Rest × List Msg :=
  handleEvents procTx block.hash db block.txs 0

/-- The blocks strictly after the cursor `h` in the chain (`block_after`
iterated): the whole chain when the cursor is the genesis hash, otherwise
the suffix after the block with hash `h`. -/
def blocksAfter (genesisHash : Nat) (chain : List (BlockM Tx)) (h : Nat) :
    List (BlockM Tx) :=
  if h = genesisHash then chain
  else
    match chain with
    | [] => []
    | b :: rest =>
      if b.hash = h then rest else blocksAfter genesisHash rest h

/-- The `while` loop of `handle_new_blocks`: process each block, advancing
the `LastBlock` cursor after each. -/
def handleBlocksLoop : Db Rest → List (BlockM Tx) → Db Rest × List Msg
  | db, [] => (db, [])
  | db, b :: rest =>
    let (db, msgs) := handleBlock procTx db b
    let db := { db with lastBlock := b.hash }
    let (db, more) := handleBlocksLoop db rest
    (db, msgs ++ more)

/-- `handle_new_blocks`. -/
def handleNewBlocks (genesisHash : Nat) (chain : List (BlockM Tx))
    (db : Db Rest) : Db Rest × List Msg :=
  handleBlocksLoop procTx db (blocksAfter genesisHash chain db.lastBlock)

end Replay

end Tributary

namespace KeyGenM

/-! ## Processor key-gen driver (processor/src/key_gen.rs)

The DKG machines themselves (`SecretShareMachine`, `KeyMachine`, from the
external `frost::dkg` crate) are opaque to the claims about `KeyGen`'s
bookkeeping; they are modelled as tokens (`Nat`) allocated from a fresh
counter.  `ValidatorSetInstance` keys are `Nat`.  Database writes of
`params` are logged in order; the error paths of the frost machines
(`todo!("malicious signer")`) are outside the claims exercised here and the
machine steps are modelled as succeeding; the `panic!` in the
`Commitments` handler is modelled as `none`. -/

/-- In-memory state of `KeyGen`: the two active machine maps (set ↦
machine token), the log of `save_params` writes, and the token counter. -/
structure KGState where
  activeCommit : List (Nat × Nat)
  activeShare : List (Nat × Nat)
  paramsWrites : List (Nat × Nat)
  fresh : Nat
deriving DecidableEq, Repr

/-- `HashMap::remove`: the removed value (if any) and the map without the
key. -/
def mapRemove (k : Nat) (m : List (Nat × Nat)) :
    Option Nat × List (Nat × Nat) :=
  ((m.find? (fun kv => kv.1 = k)).map (·.2), m.filter (fun kv => kv.1 ≠ k))

/-- `HashMap::get` (by key). -/
def mapGet (k : Nat) (m : List (Nat × Nat)) : Option Nat :=
  (m.find? (fun kv => kv.1 = k)).map (·.2)

/-- `HashMap::insert` (the handlers only insert keys they just removed). -/
def mapInsert (k v : Nat) (m : List (Nat × Nat)) : List (Nat × Nat) :=
  (k, v) :: m.filter (fun kv => kv.1 ≠ k)

/-- The coordinator messages driving `KeyGen::handle` (the fields beyond
the set and the params do not affect the bookkeeping under scrutiny). -/
inductive KGMsg where
  | generateKey (set params : Nat)
  | commitments (set : Nat)
  | shares (set : Nat)
deriving DecidableEq, Repr

/-- `KeyGen::handle`.  `none` is a panic.  The `GenerateKey` arm mirrors
the short-circuiting
`if self.active_commit.remove(&set).is_none() && self.active_share.remove(&set).is_none()`:
when the first `remove` yields a machine, the second is never evaluated,
so `active_share` is left untouched by that arm. -/
def kgHandle (st : KGState) (msg : KGMsg) : Option KGState :=
  match msg with
  | .generateKey set params =>
    let st :=
      match mapRemove set st.activeCommit with
      | (some _, commit) =>
        -- short-circuit: `active_share.remove` is not evaluated
        { st with activeCommit := commit }
      | (none, commit) =>
        match mapRemove set st.activeShare with
        | (some _, share) =>
          { st with activeCommit := commit, activeShare := share }
        | (none, share) =>
          -- first time this set is handled: save the params
          { st with
            activeCommit := commit, activeShare := share,
            paramsWrites := (set, params) :: st.paramsWrites }
    -- `let (machine, commitments) = key_gen_machine(id, params);`
    -- `self.active_commit.insert(id.set, machine);`
    some { st with
      activeCommit := mapInsert set st.fresh st.activeCommit,
      fresh := st.fresh + 1 }
  | .commitments set =>
    if (mapGet set st.activeShare).isSome then
      -- `panic!("commitments when already handled commitments")`
      none
    else
      -- machine: the removed commit machine, else rebuilt deterministically
      let (m, commit) := mapRemove set st.activeCommit
      let (tok, fresh) :=
        match m with
        | some t => (t, st.fresh)
        | none => (st.fresh, st.fresh + 1)
      -- `generate_secret_shares` consumes the machine; insert into share map
      some { st with
        activeCommit := commit,
        activeShare := mapInsert set tok st.activeShare,
        fresh := fresh }
  | .shares set =>
    let (m, share) := mapRemove set st.activeShare
    let (_, fresh) :=
      match m with
      | some t => (t, st.fresh)
      | none => (st.fresh, st.fresh + 1)
    -- `calculate_share(..).complete()`; keys are persisted, machine dropped
    some { st with activeShare := share, fresh := fresh }

/-- Run a sequence of messages from a state (stopping on panic). -/
def kgRun : KGState → List KGMsg → Option KGState
  | st, [] => some st
  | st, m :: rest =>
    match kgHandle st m with
    | some st => kgRun st rest
    | none => none

/-- The empty `KeyGen` state (`KeyGen::new`). -/
def kgInit : KGState := { activeCommit := [], activeShare := [], paramsWrites := [], fresh := 0 }

end KeyGenM

namespace BP25519

/-! ## bulletproof25519 points (crypto/bulletproof25519/src/point.rs)

`FieldElement` arithmetic (the `field!` macro of proof25519, over the
prime modulus of roughly `2^256 − δ`) is modelled from the spec as
`ZMod p` for a parameter `p`: `add`/`sub`/`mul`/`double` are mod-`p`
arithmetic, `invert` is `pow (p − 2)` guarded by the zero flag, `sqrt` is
`pow ((p + 1) / 4)`, `is_odd` is the low bit of the canonical value, and
the 33-byte little-endian `Repr` is the canonical value as a `Nat` below
`2^264` (bit 263 being the high bit of byte 32).  The scalar `ORDER` used
by the torsion check is a parameter `order`, multiplied via its 264-bit
little-endian representation exactly as `Mul<Scalar> for Point` does. -/

/-- Jacobian point, `Z = 0` encoding the identity. -/
structure Point (p : Nat) where
  x : ZMod p
  y : ZMod p
  z : ZMod p
deriving DecidableEq

/-- `FieldElement::double`. -/
def fdouble {p : Nat} (a : ZMod p) : ZMod p := a + a

/-- `FieldElement::invert().unwrap_or(zero)`. -/
def invertOrZero (p : Nat) (a : ZMod p) : ZMod p :=
  if a = 0 then 0 else a ^ (p - 2)

/-- `FieldElement::is_odd`. -/
def isOddF {p : Nat} (a : ZMod p) : Bool := decide (a.val % 2 = 1)

/-- `Point::identity()`: `(0, 1, 0)`. -/
def Point.identity (p : Nat) : Point p := ⟨0, 1, 0⟩

/-- `Point::double` (dbl-2009-l style formula from the source). -/
def Point.double {p : Nat} (P : Point p) : Point p :=
  let a := P.x * P.x
  let b := P.y * P.y
  let c := b * b
  let d := fdouble ((P.x + b) * (P.x + b) - a - c)
  let e := fdouble a + a
  let f := e * e
  let x := f - fdouble d
  { x := x
    y := e * (d - x) - fdouble (fdouble (fdouble c))
    z := fdouble (P.y * P.z) }

/-- `Point::ct_eq`: projective equality
`(X·Z'², Y·Z'³) = (X'·Z², Y'·Z³)`. -/
def pointEqb {p : Nat} (P Q : Point p) : Bool :=
  decide (P.x * (Q.z * Q.z) = Q.x * (P.z * P.z)) &&
    decide (P.y * Q.z * (Q.z * Q.z) = Q.y * P.z * (P.z * P.z))

/-- The `CtOption` chain of `Add for Point` before the final conditional
select: identity operands, the equal branch (`double`), the negation
branch (identity), then the generic add-2007-bl formula. -/
def Point.addInner {p : Nat} (P Q : Point p) : Point p :=
  let z1s := P.z * P.z
  let z2s := Q.z * Q.z
  let u1 := P.x * z2s
  let u2 := Q.x * z1s
  let s1 := P.y * Q.z * z2s
  let s2 := Q.y * P.z * z1s
  if Q.x = 0 then P
  else if P.x = 0 then Q
  else if u1 = u2 ∧ s1 = s2 then P.double
  else if u1 = u2 ∧ s1 = -s2 then Point.identity p
  else
    let h := u2 - u1
    let i := fdouble h * fdouble h
    let j := h * i
    let r := fdouble (s2 - s1)
    let v := u1 * i
    let x := r * r - j - fdouble v
    { x := x
      y := r * (v - x) - fdouble s1 * j
      z := ((P.z + Q.z) * (P.z + Q.z) - z1s - z2s) * h }

/-- `Add for Point`: the computed sum, with any `x = 0` result replaced by
the identity (the final `conditional_select` in the source). -/
def Point.add {p : Nat} (P Q : Point p) : Point p :=
  let res := P.addInner Q
  if res.x = 0 then Point.identity p else res

/-- `Neg for Point`. -/
def Point.neg {p : Nat} (P : Point p) : Point p := ⟨P.x, -P.y, P.z⟩

/-- The running `table[i] = table[i - 1] + self` entries of the 4-bit
window table. -/
def tableFrom {p : Nat} (P : Point p) : Point p → Nat → List (Point p)
  | _, 0 => []
  | acc, n + 1 =>
    let nxt := acc.add P
    nxt :: tableFrom P nxt n

/-- The 16-entry window table: identity, `self`, then successive sums. -/
def mulTable {p : Nat} (P : Point p) : List (Point p) :=
  Point.identity p :: P :: tableFrom P P 14

/-- The bit loop of `Mul<Scalar> for Point`: most-significant bit first,
accumulating 4-bit windows, with four doublings before absorbing each
window except the first. -/
def mulLoop {p : Nat} (table : List (Point p)) :
    List Bool → Nat → Nat → Point p → Point p
  | [], _, _, res => res
  | bit :: rest, i, bits, res =>
    let bits := 2 * bits + (if bit then 1 else 0)
    if (i + 1) % 4 = 0 then
      let res := if i ≠ 3 then res.double.double.double.double else res
      let res := res.add (table.getD bits (Point.identity p))
      mulLoop table rest (i + 1) 0 res
    else
      mulLoop table rest (i + 1) bits res

/-- `Scalar::to_le_bits().iter().rev()`: the 264 little-endian bits of the
scalar's canonical value, reversed to most-significant-first. -/
def scalarBitsRev (s : Nat) : List Bool :=
  ((List.range 264).map s.testBit).reverse

/-- `Mul<Scalar> for Point`, the scalar given by its canonical value. -/
def Point.mulNat {p : Nat} (P : Point p) (s : Nat) : Point p :=
  mulLoop (mulTable P) (scalarBitsRev s) 0 0 (Point.identity p)

/-- `GroupEncoding::from_bytes`: split off the sign bit (bit 263), parse
the x coordinate (rejecting `x ≥ p`), recover `y` via
`sqrt = pow ((p+1)/4)` checked against `y² = x³ + 1`, match the y-sign,
mark `z = 0` for `x = 0`, and reject negative infinity and points whose
`ORDER`-multiple is not the identity. -/
def fromBytes (p order : Nat) (e : Nat) : Option (Point p) :=
  let sign : Bool := e.testBit 263
  let cleared := e % 2 ^ 263
  if cleared < p then
    let x : ZMod p := (cleared : ZMod p)
    let a := x * x * x + 1
    let yc := a ^ ((p + 1) / 4)
    if a = yc * yc then
      let y := if isOddF yc = sign then yc else -yc
      let pt : Point p := ⟨x, y, if x = 0 then 0 else 1⟩
      if (x = 0 ∧ sign = true) ∨
          pointEqb (pt.mulNat order) (Point.identity p) = false then none
      else some pt
    else none
  else none

/-- `GroupEncoding::to_bytes`: affine coordinates via `invert().unwrap_or(0)`,
the x value in the low 263 bits and the oddness of y in bit 263. -/
def toBytes {p : Nat} (P : Point p) : Nat :=
  let z2 := P.z * P.z
  let z3 := z2 * P.z
  let x := P.x * invertOrZero p z2
  let y := P.y * invertOrZero p z3
  x.val + (if isOddF y then 2 ^ 263 else 0)

end BP25519

namespace ACircuit

/-! ## Arithmetic circuit builder (crypto/bulletproofs-plus/src/arithmetic_circuit.rs)

Parametric in the scalar field `F` and the group `G` of the ciphersuite.
Pedersen commitments `g·value + h·mask` are abstracted by a parameter
`commitCalc g h value mask` so no group structure on `G` is needed.
`Option`/`Except.error` model Rust panics. -/

/-- `Variable`: secret input, committed input (opening and point), or
product output. -/
inductive VariableM (F G : Type) where
  | secret (value : Option F)
  | committed (value : Option (F × F)) (actual : G)
  | product (id : Nat) (value : Option F)
deriving DecidableEq

/-- `Product { left, right, variable }`. -/
structure ProductM where
  left : Nat
  right : Nat
  outVar : Nat
deriving DecidableEq, Repr

instance : Inhabited ProductM := ⟨⟨0, 0, 0⟩⟩

/-- `ProductReference`: a role (left/right/output) in a product gate. -/
inductive ProductRef where
  | left (product var : Nat)
  | right (product var : Nat)
  | output (product var : Nat)
deriving DecidableEq, Repr

/-- `Constraint`: sparse rows of `WL aL + WR aR + WO aO = WV v + c`. -/
structure ConstraintM (F : Type) where
  label : String
  WL : List (Nat × F)
  WR : List (Nat × F)
  WO : List (Nat × F)
  WV : List (Nat × F)
  c : F
deriving DecidableEq

variable {F G : Type} [Field F] [DecidableEq F] [DecidableEq G]

/-- `Constraint::new(label)`. -/
def ConstraintM.new (label : String) : ConstraintM F :=
  ⟨label, [], [], [], [], 0⟩

/-- Update the first entry bound to `id` (the in-place `+=` of
`Constraint::weight`), if present. -/
def updFirst : List (Nat × F) → Nat → F → Option (List (Nat × F))
  | [], _, _ => none
  | e :: rest, id, w =>
    if e.1 = id then some ((e.1, e.2 + w) :: rest)
    else (updFirst rest id w).map (e :: ·)

/-- Merge-or-push a weight into a sparse row. -/
def addWeight (l : List (Nat × F)) (id : Nat) (w : F) : List (Nat × F) :=
  (updFirst l id w).getD (l ++ [(id, w)])

/-- `Constraint::weight`. -/
def ConstraintM.weight (con : ConstraintM F) (pr : ProductRef) (w : F) :
    ConstraintM F :=
  match pr with
  | .left id _ => { con with WL := addWeight con.WL id w }
  | .right id _ => { con with WR := addWeight con.WR id w }
  | .output id _ => { con with WO := addWeight con.WO id w }

/-- `Constraint::rhs_offset` (asserts the offset was unset). -/
def ConstraintM.rhsOffset (con : ConstraintM F) (offset : F) :
    Option (ConstraintM F) :=
  if con.c = 0 then some { con with c := offset } else none

/-- The circuit builder state. -/
structure CircuitM (F G : Type) where
  g : G
  h : G
  gBold1 : List G
  gBold2 : List G
  hBold1 : List G
  hBold2 : List G
  prover : Bool
  commitments : Nat
  vars : List (VariableM F G)
  products : List ProductM
  boundProducts : List (List (ProductRef × Option G))
  finalizedCommitments : List (Nat × Option F)
  vectorCommitments : Option (List G)
  constraints : List (ConstraintM F)
deriving DecidableEq

/-- `Variable::value()`: panics (`none`) on a committed variable. -/
def VariableM.value : VariableM F G → Option (Option F)
  | .secret v => some v
  | .committed _ _ => none
  | .product _ v => some v

/-- Indexing `self.variables[i]` (panic on out of bounds). -/
def CircuitM.varAt (c : CircuitM F G) (i : Nat) : Option (VariableM F G) :=
  c.vars.get? i

/-- `Circuit::unchecked_value`. -/
def CircuitM.uncheckedValue (c : CircuitM F G) (i : Nat) : Option (Option F) :=
  (c.varAt i).bind VariableM.value

/-- The scan of `Circuit::variable_to_product` over the enumerated product
list, with the source's `debug_assert` and its panic on a product pointing
at a non-product variable. -/
def vtpScan (c : CircuitM F G) (i : Nat) :
    List (Nat × ProductM) → Option (Option ProductRef)
  | [] => some none
  | (k, pr) :: rest =>
    if i = pr.left ∨ i = pr.right then
      match c.varAt pr.outVar with
      | some (.product pid _) =>
        if pid = k then
          if i = pr.left then
            some (some (.left k (c.products.getD pid default).left))
          else
            some (some (.right k (c.products.getD pid default).right))
        else none
      | some _ => none
      | none => none
    else vtpScan c i rest

/-- `Circuit::variable_to_product`. -/
def CircuitM.variableToProduct (c : CircuitM F G) (i : Nat) :
    Option (Option ProductRef) :=
  match c.varAt i with
  | none => none
  | some (.product pid _) => some (some (.output pid i))
  | some _ => vtpScan c i c.products.enum

/-- The cache lookup of `Circuit::product`: the first product with this
exact `(left, right)` pair. -/
def findCachedProduct (a b : Nat) : List (Nat × ProductM) → Option Nat
  | [] => none
  | (k, pr) :: rest =>
    if pr.left = a ∧ pr.right = b then some k else findCachedProduct a b rest

/-- `Circuit::constrain`. -/
def CircuitM.constrain (c : CircuitM F G) (con : ConstraintM F) :
    CircuitM F G :=
  { c with constraints := c.constraints ++ [con] }

/-- `Circuit::constrain_equality`. -/
def CircuitM.constrainEquality (c : CircuitM F G) (a b : ProductRef) :
    CircuitM F G :=
  if a = b then c
  else c.constrain (((ConstraintM.new "equality").weight a 1).weight b (-1))

/-- `Circuit::equals_constant`. -/
def CircuitM.equalsConstant (c : CircuitM F G) (a : ProductRef) (b : F) :
    Option (CircuitM F G) :=
  if b = 0 then
    some (c.constrain ((ConstraintM.new "constant_equality").weight a 1))
  else do
    let con ← (((ConstraintM.new "constant_equality").weight a b⁻¹)).rhsOffset 1
    pure (c.constrain con)

/-- `Circuit::product`: return the cached triple, or create the product,
its output variable, and the consistency constraints with prior uses. -/
def CircuitM.product (c : CircuitM F G) (a b : Nat) :
    Option ((ProductRef × ProductRef × ProductRef) × Nat × CircuitM F G) :=
  match findCachedProduct a b c.products.enum with
  | some id =>
    let pr := c.products.getD id default
    some ((.left id a, .right id b, .output id pr.outVar), pr.outVar, c)
  | none => do
    let existingA ← c.variableToProduct a
    let existingB ← c.variableToProduct b
    let newVal : Option (Option F) ←
      if c.prover then
        match (c.varAt a).bind VariableM.value,
            (c.varAt b).bind VariableM.value with
        | some (some lv), some (some rv) => some (some (lv * rv))
        | _, _ => none
      else some (none : Option F)
    let pid := c.products.length
    let varIdx := c.vars.length
    let refs := (ProductRef.left pid a, ProductRef.right pid b,
      ProductRef.output pid varIdx)
    let c := { c with
      products := c.products ++ [⟨a, b, varIdx⟩],
      vars := c.vars ++ [.product pid newVal] }
    let c := match existingA with
      | some ex => c.constrainEquality (.left pid a) ex
      | none => c
    let c := match existingB with
      | some ex => c.constrainEquality (.right pid b) ex
      | none => c
    some (refs, varIdx, c)

/-- `Circuit::add_secret_input` (asserts value presence matches prover
mode). -/
def CircuitM.addSecretInput (c : CircuitM F G) (value : Option F) :
    Option (Nat × CircuitM F G) :=
  if c.prover = value.isSome then
    some (c.vars.length, { c with vars := c.vars ++ [.secret value] })
  else none

/-! ### `Circuit::compile` -/

/-- Witness collection (first phase of `compile`, prover mode): walk the
variables, unwrapping committed openings (checking them against their
points) and product operands, building `aL`, `aR`, `v`, `gamma`. -/
def collectWitnessGo (commitCalc : G → G → F → F → G) (c : CircuitM F G) :
    List (VariableM F G) → List F × List F × List F × List F →
    Option (List F × List F × List F × List F)
  | [], acc => some acc
  | v :: rest, (aL, aR, vv, gam) =>
    match v with
    | .secret _ => collectWitnessGo commitCalc c rest (aL, aR, vv, gam)
    | .committed val actual =>
      match val with
      | none => none
      | some (value, mask) =>
        if commitCalc c.g c.h value mask = actual then
          collectWitnessGo commitCalc c rest (aL, aR, vv ++ [value], gam ++ [mask])
        else none
    | .product pid _ =>
      match c.products.get? pid with
      | none => none
      | some pr =>
        match (c.varAt pr.left).bind VariableM.value,
            (c.varAt pr.right).bind VariableM.value with
        | some (some lv), some (some rv) =>
          collectWitnessGo commitCalc c rest (aL ++ [lv], aR ++ [rv], vv, gam)
        | _, _ => none

/-- The witness phase of `compile`. -/
def collectWitness (commitCalc : G → G → F → F → G) (c : CircuitM F G) :
    Option (List F × List F × List F × List F) :=
  collectWitnessGo commitCalc c c.vars ([], [], [], [])

/-- The committed points `V` (second phase of `compile`). -/
def collectV (c : CircuitM F G) : List G :=
  c.vars.filterMap (fun v =>
    match v with
    | .committed _ actual => some actual
    | _ => none)

/-- `Σ w · vec[i]` over a sparse row, with the source's panicking
indexing. -/
def evalRowM (vec : List F) : List (Nat × F) → Option F
  | [] => some 0
  | (i, w) :: rest => do
    let x ← vec.get? i
    let r ← evalRowM vec rest
    pure (w * x + r)

/-- `Σ w · (aL[i] · aR[i])` over a sparse `WO` row. -/
def evalRowO (aL aR : List F) : List (Nat × F) → Option F
  | [] => some 0
  | (i, w) :: rest => do
    let x ← aL.get? i
    let y ← aR.get? i
    let r ← evalRowO aL aR rest
    pure (w * (x * y) + r)

/-- The per-constraint self-check loop of `compile`: in prover mode,
`WL·aL + WR·aR + WO·aO − WV·v` must equal `c`, else the panic names the
constraint's label. -/
def checkConstraints (prover : Bool) (aL aR v : List F) :
    List (ConstraintM F) → Except String Unit
  | [] => .ok ()
  | con :: rest =>
    if prover then
      match evalRowM aL con.WL, evalRowM aR con.WR, evalRowO aL aR con.WO,
          evalRowM v con.WV with
      | some l, some r, some o, some w =>
        if l + r + o - w = con.c then checkConstraints prover aL aR v rest
        else .error ("faulty constraint: " ++ con.label)
      | _, _, _, _ => .error "panic: index out of bounds"
    else checkConstraints prover aL aR v rest

/-- The roles `'l'`, `'r'`, `'o'` used in the generator-override phase. -/
inductive Role where
  | l
  | r
  | o
deriving DecidableEq, Repr

/-- Mutable state of the generator-override phase. -/
structure OvState (F G : Type) where
  gb1 : List G
  hb1 : List G
  gb2 : List G
  used : List (Role × Nat)
  vcs : List (List (Option F × G))
deriving DecidableEq

/-- One binding of the generator-override phase: resolve the generator
(default read panics out of bounds), overwrite it in place, record usage,
and push the (witness?, generator) pair for this vector commitment. -/
def ovBinding (witness : Option (List F × List F)) (st : OvState F G)
    (vc : Nat) (b : ProductRef × Option G) : Option (OvState F G) :=
  match b with
  | (.left pid _, gopt) => do
    let g ← match gopt with
      | some g => pure g
      | none => st.gb1.get? pid
    let gb1 ← if pid < st.gb1.length then some (st.gb1.set pid g) else none
    let w ← match witness with
      | some (aL, _) => (aL.get? pid).map some
      | none => some (none : Option F)
    let vcs := st.vcs.set vc (st.vcs.getD vc [] ++ [(w, g)])
    pure { st with gb1 := gb1, used := st.used ++ [(Role.l, pid)], vcs := vcs }
  | (.right pid _, gopt) => do
    let g ← match gopt with
      | some g => pure g
      | none => st.hb1.get? pid
    let hb1 ← if pid < st.hb1.length then some (st.hb1.set pid g) else none
    let w ← match witness with
      | some (_, aR) => (aR.get? pid).map some
      | none => some (none : Option F)
    let vcs := st.vcs.set vc (st.vcs.getD vc [] ++ [(w, g)])
    pure { st with hb1 := hb1, used := st.used ++ [(Role.r, pid)], vcs := vcs }
  | (.output pid _, gopt) => do
    let g ← match gopt with
      | some g => pure g
      | none => st.gb2.get? pid
    let gb2 ← if pid < st.gb2.length then some (st.gb2.set pid g) else none
    let w ← match witness with
      | some (aL, aR) => do
        let x ← aL.get? pid
        let y ← aR.get? pid
        pure (some (x * y))
      | none => some (none : Option F)
    let vcs := st.vcs.set vc (st.vcs.getD vc [] ++ [(w, g)])
    pure { st with gb2 := gb2, used := st.used ++ [(Role.o, pid)], vcs := vcs }

/-- Fold `ovBinding` over one vector commitment's bindings. -/
def ovBindings (witness : Option (List F × List F)) :
    OvState F G → Nat → List (ProductRef × Option G) → Option (OvState F G)
  | st, _, [] => some st
  | st, vc, b :: rest => do
    let st ← ovBinding witness st vc b
    ovBindings witness st vc rest

/-- Fold over all vector commitments. -/
def ovAll (witness : Option (List F × List F)) :
    OvState F G → List (Nat × List (ProductRef × Option G)) →
    Option (OvState F G)
  | st, [] => some st
  | st, (vc, bs) :: rest => do
    let st ← ovBindings witness st vc bs
    ovAll witness st rest

/-- The per-product witness values handed to `add_to_others` for one role
(indexing the witness vectors panics when out of bounds). -/
def witProj (w : Option (List F)) (n : Nat) : Option (List (Option F)) :=
  (List.range n).mapM (fun i =>
    match w with
    | none => some (none : Option F)
    | some l => (l.get? i).map some)

/-- As `witProj`, for the output role (`aL[i] * aR[i]`). -/
def witProjO (w : Option (List F × List F)) (n : Nat) :
    Option (List (Option F)) :=
  (List.range n).mapM (fun i =>
    match w with
    | none => some (none : Option F)
    | some (aL, aR) => do
      let x ← aL.get? i
      let y ← aR.get? i
      pure (some (x * y)))

/-- `add_to_others`: push every product position of a role not bound to a
vector commitment, with its (possibly overridden) generator. -/
def addToOthers (label : Role) (used : List (Role × Nat))
    (vals : List (Option F)) (gens : List G) : Option (List (Option F × G)) :=
  (vals.enum.filterMap (fun e =>
    if (label, e.1) ∈ used then none else some e)).mapM
    (fun e => (gens.get? e.1).map (fun g => (e.2, g)))

/-- `Circuit::compile`: witness collection, the constraint self-check, and
the generator override / vector-commitment / `others` assembly.
The `Except` value is the panic message. -/
def compileM (commitCalc : G → G → F → F → G) (c : CircuitM F G) :
    Except String
      ((List F × List F × List F × List F) × List G ×
        (List G × List G × List G) × List (List (Option F × G)) ×
        List (Option F × G)) := do
  let witness ←
    if c.prover then
      match collectWitness commitCalc c with
      | some w => Except.ok (some w)
      | none => Except.error "panic: witness collection"
    else Except.ok none
  let V := collectV c
  let (aL, aR, v, gamma) := witness.getD ([], [], [], [])
  let _ ← checkConstraints c.prover aL aR v c.constraints
  let wpair := witness.map (fun w => (w.1, w.2.1))
  let st0 : OvState F G :=
    { gb1 := c.gBold1, hb1 := c.hBold1, gb2 := c.gBold2, used := [],
      vcs := List.replicate c.boundProducts.length [] }
  let st ←
    match ovAll wpair st0 c.boundProducts.enum with
    | some st => Except.ok st
    | none => Except.error "panic: generator override"
  let others ←
    match
      (do
        let lv ← witProj (wpair.map (·.1)) c.products.length
        let ol ← addToOthers Role.l st.used lv st.gb1
        let rv ← witProj (wpair.map (·.2)) c.products.length
        let orr ← addToOthers Role.r st.used rv st.hb1
        let ov ← witProjO wpair c.products.length
        let oo ← addToOthers Role.o st.used ov st.gb2
        pure (ol ++ orr ++ oo) : Option (List (Option F × G))) with
    | some o => Except.ok o
    | none => Except.error "panic: others assembly"
  pure ((aL, aR, v, gamma), V, (st.gb1, st.hb1, st.gb2), st.vcs, others)

/-! ### Constraint-system satisfaction

The compiled system constrains vectors `aL`, `aR` (one entry per product
gate) with `aO = aL ∘ aR`, and the committed values `v`.  A witness for
the builder is an assignment `vals` to the builder's variables; the
product-gate vectors it induces are read through each gate's `left` /
`right` variables. -/

/-- `Σ w · f i` over a sparse row. -/
def rowSum (w : List (Nat × F)) (f : Nat → F) : F :=
  (w.map (fun e => e.2 * f e.1)).sum

/-- The spec's per-constraint evaluation over the collected witness
vectors: `W_L·aL + W_R·aR + W_O·aO − W_V·v` with `aO = aL ∘ aR`. -/
def constraintEval (aL aR v : List F) (con : ConstraintM F) : F :=
  rowSum con.WL (fun i => aL.getD i 0) + rowSum con.WR (fun i => aR.getD i 0) +
    rowSum con.WO (fun i => aL.getD i 0 * aR.getD i 0) -
    rowSum con.WV (fun i => v.getD i 0)

/-- The range condition on a constraint's sparse rows (the indices the
compile-time evaluation touches are within the witness vectors). -/
def rowRanges (aL aR v : List F) (con : ConstraintM F) : Prop :=
  (∀ e ∈ con.WL, e.1 < aL.length) ∧ (∀ e ∈ con.WR, e.1 < aR.length) ∧
    (∀ e ∈ con.WO, e.1 < aL.length ∧ e.1 < aR.length) ∧
    (∀ e ∈ con.WV, e.1 < v.length)

instance (aL aR v : List F) (con : ConstraintM F) :
    Decidable (rowRanges aL aR v con) := by
  unfold rowRanges
  infer_instance

/-- A constraint holds for a variable assignment. -/
def conHolds (products : List ProductM) (vals vvals : List F)
    (con : ConstraintM F) : Prop :=
  rowSum con.WL (fun i => vals.getD (products.getD i default).left 0) +
    rowSum con.WR (fun i => vals.getD (products.getD i default).right 0) +
    rowSum con.WO (fun i =>
      vals.getD (products.getD i default).left 0 *
        vals.getD (products.getD i default).right 0) -
    rowSum con.WV (fun i => vvals.getD i 0) = con.c

instance (products : List ProductM) (vals vvals : List F)
    (con : ConstraintM F) : Decidable (conHolds products vals vvals con) := by
  unfold conHolds
  infer_instance

/-- A variable assignment satisfies the circuit's constraint system. -/
def satisfies (c : CircuitM F G) (vals vvals : List F) : Prop :=
  ∀ con ∈ c.constraints, conHolds c.products vals vvals con

instance (c : CircuitM F G) (vals vvals : List F) :
    Decidable (satisfies c vals vvals) := by
  unfold satisfies
  infer_instance

/-! ### Bit gadget (crypto/bulletproofs-plus/src/gadgets/bit.rs) -/

/-- `Bit`: the claimed value, the bit variable, and the `b − 1` helper. -/
structure BitM (F : Type) where
  value : Option Bool
  var : Nat
  minusOne : Nat
deriving DecidableEq, Repr

/-- `Bit::new_from_var`: allocate `r := b − 1`, constrain the product
`l · r` to output 0, and constrain `l − r = 1`. -/
def bitNewFromVar (c : CircuitM F G) (l : Nat) :
    Option (BitM F × CircuitM F G) := do
  let bitVal ← c.uncheckedValue l
  let (r, c) ← c.addSecretInput (bitVal.map (fun b => b - 1))
  let (refs, _, c) ← c.product l r
  let (lp, rp, op) := refs
  let c ← c.equalsConstant op 0
  let con ← (((ConstraintM.new "l_minus_one").weight lp 1).weight rp
    (-1)).rhsOffset 1
  let c := c.constrain con
  pure (⟨bitVal.map (fun b => decide (b = 1)), l, r⟩, c)

/-- `Bit::select`: gates `b · if_true` and `(b − 1) · if_false`, a shared
gate on `chosen`, and the constraint `lo − ro − chosen = 0`. -/
def bitSelect (bit : BitM F) (c : CircuitM F G) (ifFalse ifTrue : Nat) :
    Option (Nat × CircuitM F G) := do
  let falseVar ← c.uncheckedValue ifFalse
  let trueVar ← c.uncheckedValue ifTrue
  let chosenVal : Option F ←
    if c.prover then
      match bit.value, falseVar, trueVar with
      | some bv, some fv, some tv =>
        some (some (if bv then tv else fv))
      | _, _, _ => none
    else some (none : Option F)
  let (chosen, c) ← c.addSecretInput chosenVal
  let (refs1, _, c) ← c.product chosen chosen
  let (chosenProd, _, _) := refs1
  let (refs2, _, c) ← c.product bit.var ifTrue
  let (_, _, lo) := refs2
  let (refs3, _, c) ← c.product bit.minusOne ifFalse
  let (_, _, ro) := refs3
  let con := (((ConstraintM.new "chosen").weight lo 1).weight ro
    (-1)).weight chosenProd (-1)
  let c := c.constrain con
  pure (chosen, c)

end ACircuit

namespace CurveTree

/-! ## Curve tree (crypto/curve-trees/src/tree.rs)

Parametric in the two curves of the cycle: `P1`/`P2` are the point types
(with identities `id1`/`id2`), `c1c`/`c2c` the affine coordinate
projections into the opposite curve's scalar field (`F2`/`F1`), and
`ped1`/`ped2` the Pedersen hashes, modelled from the spec
(`H(x₁…xₖ; G₁…Gₖ) = Σ xᵢ Gᵢ`; `pedersen_hash_vartime` is not under the
provided sources).  `Option` models panics, including Rust's panicking
slice `&row[.. k]` for `k > row.len()`. -/

/-- `Hash`: a node hash on one of the two curves. -/
inductive HashT (P1 P2 : Type) where
  | even : P1 → HashT P1 P2
  | odd : P2 → HashT P1 P2
deriving DecidableEq, Repr

mutual

/-- `Child`: a leaf point or a subtree. -/
inductive ChildT (P1 P2 : Type) where
  | leaf : P1 → ChildT P1 P2
  | node : NodeT P1 P2 → ChildT P1 P2

/-- `Node { hash, dirty, children }`. -/
inductive NodeT (P1 P2 : Type) where
  | mk : HashT P1 P2 → Bool → List (ChildT P1 P2) → NodeT P1 P2

end

variable {F1 F2 P1 P2 : Type}

def hashOf : NodeT P1 P2 → HashT P1 P2
  | .mk h _ _ => h

def dirtyOf : NodeT P1 P2 → Bool
  | .mk _ d _ => d

def childrenOf : NodeT P1 P2 → List (ChildT P1 P2)
  | .mk _ _ cs => cs

/-- `node.dirty = true`. -/
def setDirtyN : NodeT P1 P2 → NodeT P1 P2
  | .mk h _ cs => .mk h true cs

mutual

/-- `depth(node)`. -/
def depthN : NodeT P1 P2 → Nat
  | .mk _ _ [] => 0
  | .mk _ _ (c :: _) => depthC c

def depthC : ChildT P1 P2 → Nat
  | .leaf _ => 1
  | .node n => depthN n + 1

end

mutual

/-- `add_to_node`: push into this node if it has room, else descend into
the first branch with room; `none` when the subtree is full (the `false`
return). -/
def addToNode (width : Nat) : NodeT P1 P2 → P1 → Option (NodeT P1 P2)
  | .mk h d cs, leaf =>
    if cs.length < width then some (.mk h true (cs ++ [.leaf leaf]))
    else (addToChildren width cs leaf).map (fun cs2 => .mk h d cs2)

def addToChildren (width : Nat) :
    List (ChildT P1 P2) → P1 → Option (List (ChildT P1 P2))
  | [], _ => none
  | .leaf _ :: _, _ => none
  | .node n :: rest, leaf =>
    match addToNode width n leaf with
    | some n2 => some (.node (setDirtyN n2) :: rest)
    | none => (addToChildren width rest leaf).map (fun r => ChildT.node n :: r)

end

section TreeOps

variable (id1 : P1) (id2 : P2)

mutual

/-- The `clear` pass of the growth step: reset hashes, drop leaves, keep
structure.  Panics (`none`) mirror the source's `children[0]` indexing and
its mixed-children panic. -/
def clearN : NodeT P1 P2 → Option (NodeT P1 P2)
  | .mk h _ cs =>
    let h2 := match h with
      | .even _ => HashT.even id1
      | .odd _ => HashT.odd id2
    match cs with
    | [] => none
    | .leaf _ :: _ => some (.mk h2 false [])
    | .node _ :: _ => (clearChildren cs).map (fun cs2 => NodeT.mk h2 false cs2)

def clearChildren : List (ChildT P1 P2) → Option (List (ChildT P1 P2))
  | [] => some []
  | .leaf _ :: _ => none
  | .node n :: rest => do
    let n2 ← clearN n
    let r ← clearChildren rest
    pure (ChildT.node n2 :: r)

end

variable (c1c : P1 → F2 × F2) (c2c : P2 → F1 × F1)
variable (ped1 : List F1 → List P1 → P1) (ped2 : List F2 → List P2 → P2)

/-- Collect the children's coordinate scalars, with the source's parity
asserts (`none` when a child hash parity matches the parent's). -/
def gatherElems (parentEven : Bool) :
    List (HashT P1 P2) → Option (List F2 × List F1)
  | [] => some ([], [])
  | .even hl :: rest =>
    if parentEven then none
    else do
      let (e, o) ← gatherElems parentEven rest
      pure ((c1c hl).1 :: (c1c hl).2 :: e, o)
  | .odd hl :: rest =>
    if parentEven then do
      let (e, o) ← gatherElems parentEven rest
      pure (e, (c2c hl).1 :: (c2c hl).2 :: o)
    else none

/-- `&rows[rowIdx][.. len]` with Rust panic semantics. -/
def sliceGens {α : Type} (rows : List (List α)) (rowIdx len : Nat) :
    Option (List α) := do
  let row ← rows.get? rowIdx
  if len ≤ row.length then some (row.take len) else none

variable (oddGens : List (List P1)) (evenGens : List (List P2))

mutual

/-- The `clean` pass: recompute hashes bottom-up over dirty nodes,
projecting child hashes to the opposite curve's coordinates and hashing
with the depth's generator row sliced to `elems.len() * 2` entries as in
the source. -/
def cleanN : NodeT P1 P2 → Option (NodeT P1 P2)
  | .mk h d cs =>
    if d = false then some (.mk h d cs)
    else do
      let (cs2, hashes) ← cleanChildren cs
      let parentEven := match h with
        | .even _ => true
        | .odd _ => false
      let (evenElems, oddElems) ← gatherElems c1c c2c parentEven hashes
      let thisDepth := depthN (NodeT.mk h d cs2)
      match h with
      | .even _ => do
        if evenElems.isEmpty then
          let gens ← sliceGens oddGens ((thisDepth - 1) / 2) (oddElems.length * 2)
          pure (NodeT.mk (.even (ped1 oddElems gens)) false cs2)
        else none
      | .odd _ => do
        if oddElems.isEmpty then
          let gens ← sliceGens evenGens (thisDepth / 2) (evenElems.length * 2)
          pure (NodeT.mk (.odd (ped2 evenElems gens)) false cs2)
        else none

def cleanChildren :
    List (ChildT P1 P2) → Option (List (ChildT P1 P2) × List (HashT P1 P2))
  | [] => some ([], [])
  | .leaf x :: rest => do
    let (r, hs) ← cleanChildren rest
    pure (ChildT.leaf x :: r, HashT.even x :: hs)
  | .node n :: rest => do
    let n2 ← cleanN n
    let (r, hs) ← cleanChildren rest
    pure (ChildT.node n2 :: r, hashOf n2 :: hs)

end

/-- The per-leaf insertion loop of `add_leaves`, including the growth
step (wrap the root, siblings cleared clones, insert into the second
child). -/
def insertAll (width : Nat) : NodeT P1 P2 → List P1 → Option (NodeT P1 P2)
  | n, [] => some n
  | n, leaf :: rest =>
    match addToNode width n leaf with
    | some n2 => insertAll width n2 rest
    | none => do
      let sibling ← clearN id1 id2 n
      let currentlyEven := match hashOf n with
        | .even _ => true
        | .odd _ => false
      let children := ChildT.node n :: List.replicate (width - 1) (ChildT.node sibling)
      let children2 ←
        match children with
        | c0 :: ChildT.node next :: rest2 => do
          let next2 ← addToNode width next leaf
          pure (c0 :: ChildT.node next2 :: rest2)
        | _ :: ChildT.leaf _ :: _ => none
        | _ => none
      let newRoot := NodeT.mk
        (if currentlyEven then HashT.odd id2 else HashT.even id1) true children2
      insertAll width newRoot rest

/-- The tree: width, generator rows, root node. -/
structure TreeM (F1 F2 P1 P2 : Type) where
  width : Nat
  oddGenerators : List (List P1)
  evenGenerators : List (List P2)
  node : NodeT P1 P2

/-- `Tree::new` (with its width and generator-row-length asserts). -/
def treeNew (width : Nat) (og : List (List P1)) (eg : List (List P2)) :
    Option (TreeM F1 F2 P1 P2) :=
  if 2 ≤ width ∧ og.all (fun gens => gens.length = width * 2) ∧
      eg.all (fun gens => gens.length = width * 2) then
    some ⟨width, og, eg, .mk (.odd id2) false []⟩
  else none

/-- `Tree::add_leaves`: insert all leaves, then run `clean` from the
root. -/
def addLeaves (t : TreeM F1 F2 P1 P2) (leaves : List P1) :
    Option (TreeM F1 F2 P1 P2) := do
  let node ← insertAll id1 id2 t.width t.node leaves
  let node ← cleanN c1c c2c ped1 ped2 t.oddGenerators t.evenGenerators node
  pure { t with node := node }

/-- `Tree::root` (asserts the root is clean). -/
def rootH (t : TreeM F1 F2 P1 P2) : Option (HashT P1 P2) :=
  if dirtyOf t.node then none else some (hashOf t.node)

end TreeOps

end CurveTree

namespace Ex

/-! ## Concrete instances used to evaluate the models on explicit inputs -/

/-- A two-validator cohort with threshold 2. -/
def specEx : Tributary.Cohort := ⟨[10, 20], 2⟩

def dbEmpty : Tributary.DbCore := ⟨[], [], [], [], []⟩

/-- A database holding a prior, different payload from signer 10 for
`(batch_preprocess, 1, 0)`, with id 1 recognized for the Batch zone. -/
def dbEquiv : Tributary.DbCore :=
  ⟨[(("batch_preprocess", 1, 0, 10), [9])], [], [(.batch, 1)], [], []⟩

/-- A database with id 1 recognized and a payload stored from signer 20. -/
def dbThresh : Tributary.DbCore :=
  ⟨[(("batch_preprocess", 1, 0, 20), [9])], [], [(.batch, 1)], [], []⟩

/-- A concrete per-transaction effect for the replay model. -/
def procEx : Nat → Nat → Nat × List Nat := fun r t => (r + t, [t])

def chainEx : List (Tributary.BlockM Nat) := [⟨1, [5]⟩, ⟨2, [6, 7]⟩]

def dbEx0 : Tributary.Db Nat := ⟨0, [], 100⟩

/-- The key-gen message sequence refuting the once-per-set params claim:
a full first attempt, then a second `GenerateKey` for the same set. -/
def c5Msgs : List KeyGenM.KGMsg :=
  [.generateKey 0 5, .commitments 0, .shares 0, .generateKey 0 5]

instance : Fact (Nat.Prime 5) := ⟨by norm_num⟩

instance : Fact (Nat.Prime 7) := ⟨by norm_num⟩

instance : Fact (Nat.Prime 11) := ⟨by norm_num⟩

/-- A satisfiable one-gate prover circuit (`2 · 3 = 6`, constrained by
`1·aL[0] = 2` which holds). -/
def c8Circ : ACircuit.CircuitM (ZMod 11) Nat :=
  { g := 0, h := 1, gBold1 := [2], gBold2 := [3], hBold1 := [4],
    hBold2 := [5], prover := true, commitments := 0,
    vars := [.secret (some 2), .secret (some 3), .product 0 (some 6)],
    products := [⟨0, 1, 2⟩], boundProducts := [],
    finalizedCommitments := [], vectorCommitments := none,
    constraints := [⟨"gate", [(0, 1)], [], [], [], 2⟩] }

def c8CommitCalc : Nat → Nat → ZMod 11 → ZMod 11 → Nat := fun _ _ _ _ => 0

/-- A verifier-mode circuit with three secret inputs: `if_false` (var 0),
`if_true` (var 1), and the bit candidate (var 2). -/
def c9Start : ACircuit.CircuitM (ZMod 11) Nat :=
  { g := 0, h := 0, gBold1 := [], gBold2 := [], hBold1 := [], hBold2 := [],
    prover := false, commitments := 0,
    vars := [.secret none, .secret none, .secret none],
    products := [], boundProducts := [], finalizedCommitments := [],
    vectorCommitments := some [], constraints := [] }

instance : Inhabited (ACircuit.BitM (ZMod 11)) := ⟨⟨none, 0, 0⟩⟩

def c9Run1 := ACircuit.bitNewFromVar (G := Nat) c9Start 2

def c9Bit : ACircuit.BitM (ZMod 11) := (c9Run1.map (·.1)).getD default

def c9C1 : ACircuit.CircuitM (ZMod 11) Nat := (c9Run1.map (·.2)).getD c9Start

def c9Run2 := ACircuit.bitSelect c9Bit c9C1 0 1

def c9Chosen : Nat := (c9Run2.map (·.1)).getD 0

def c9C2 : ACircuit.CircuitM (ZMod 11) Nat := (c9Run2.map (·.2)).getD c9Start

/-- A satisfying assignment with `b = 1` and equal branch values
(`if_false = if_true = 5`). -/
def c9Vals : List (ZMod 11) := [5, 5, 1, 0, 0, 5, 3, 5, 0]

/-- A satisfying assignment with `b = 0` and distinct branch values. -/
def c9ValsW : List (ZMod 11) := [5, 7, 0, 10, 0, 5, 3, 7, 6]

/-- A width-2 curve tree over `ZMod 5` "curves" with the mandated
generator-row length `width · 2 = 4`. -/
def c4Tree : CurveTree.TreeM (ZMod 5) (ZMod 5) (ZMod 5) (ZMod 5) :=
  ⟨2, [[1, 1, 1, 1]], [[1, 1, 1, 1]], .mk (.odd 0) false []⟩

def c4Coords : ZMod 5 → ZMod 5 × ZMod 5 := fun x => (x, x)

/-- Modelled from the spec: `H(x₁…xₖ; G₁…Gₖ) = Σ xᵢ Gᵢ`. -/
def c4Ped : List (ZMod 5) → List (ZMod 5) → ZMod 5 :=
  fun es gs => (List.zipWith (fun a b => a * b) es gs).sum

end Ex

/-! # Theorems -/

/-- **C10**: `Point::add` never returns a point with projective
x-coordinate zero other than the identity: whenever the computed sum
(including the generic add-2007-bl branch) has `x = 0`, the result is the
identity point `(0, 1, 0)`. -/
theorem bp_add_x_zero_is_identity (p : Nat) (P Q : BP25519.Point p)
    (h : (P.add Q).x = 0) : P.add Q = BP25519.Point.identity p := by
  unfold BP25519.Point.add at h ⊢
  by_cases hx : (P.addInner Q).x = 0
  · simp [hx]
  · rw [if_neg hx] at h
    exact absurd h hx

/-- Witness for C10 at `p = 7`, `P = Q = identity`. -/
theorem bp_add_x_zero_is_identity_witness :
    ((BP25519.Point.identity 7).add (BP25519.Point.identity 7)).x = 0 ∧
      (BP25519.Point.identity 7).add (BP25519.Point.identity 7) =
        BP25519.Point.identity 7 :=
  ⟨by decide, bp_add_x_zero_is_identity 7 _ _ (by decide)⟩

/-- **C1** (code bug): the reducer's `handle` routine *does* panic on peer
misbehavior, contrary to the spec: the full-slash paths are `todo!()`.
Evaluating the model at three misbehaving inputs: an unrecognized Batch
id, a resubmission with a different payload, and an attempt from the
future each yield the `todo!()` panic instead of a recorded slash intent
and `None`. -/
theorem scanner_handle_panics_on_misbehavior :
    (Tributary.handle Ex.specEx Ex.dbEmpty .batch "batch_preprocess" 2 1 0
        [7] 10).1 =
      .panic "todo: full slash (unrecognized id)" ∧
    (Tributary.handle Ex.specEx Ex.dbEquiv .batch "batch_preprocess" 2 1 0
        [7] 10).1 =
      .panic "todo: full slash (equivocation)" ∧
    (Tributary.handle Ex.specEx Ex.dbEquiv .batch "batch_preprocess" 2 1 1
        [7] 20).1 =
      .panic "todo: full slash (attempt from future)" := by
  refine ⟨?_, ?_, ?_⟩ <;> decide

/-- **C5** (counterexample): after a completed attempt
(`GenerateKey`, `Commitments`, `Shares`), a second `GenerateKey` for the
same set finds both machine maps empty and writes the params to the
database a second time — the params are *not* written only on the first
`GenerateKey` seen for the set. -/
theorem keygen_params_written_twice :
    ((KeyGenM.kgRun KeyGenM.kgInit Ex.c5Msgs).map
      (fun st => st.paramsWrites)).getD [] = [(0, 5), (0, 5)] := by
  decide

theorem keygen_mapGet_insert_self (k v : Nat) (m : List (Nat × Nat)) :
    KeyGenM.mapGet k (KeyGenM.mapInsert k v m) = some v := by
  simp [KeyGenM.mapGet, KeyGenM.mapInsert]

theorem keygen_mapGet_filter_self (k : Nat) (m : List (Nat × Nat)) :
    KeyGenM.mapGet k (m.filter (fun kv => kv.1 ≠ k)) = none := by
  induction m with
  | nil => rfl
  | cons e rest ih =>
    simp only [KeyGenM.mapGet, List.filter_cons] at ih ⊢
    by_cases he : e.1 = k
    · simp [he]
    · simp [List.find?_cons, he]

/-- **C5** (amended): after `KeyGen::handle` processes a `GenerateKey` for
a set (given the reachable-state invariant that the set is never active in
both maps at once), `active_share` holds no entry for the set and
`active_commit` holds exactly the newly created machine; the params are
written exactly when *neither* map held an active machine for the set —
which happens on the first `GenerateKey`, but also on any later
`GenerateKey` arriving after the prior attempt's machines were consumed
(e.g. after its `Shares` step), not only on the first. -/
theorem keygen_generate_key_amended (st : KeyGenM.KGState)
    (set params : Nat) (st' : KeyGenM.KGState)
    (hinv : (KeyGenM.mapGet set st.activeCommit).isSome →
      KeyGenM.mapGet set st.activeShare = none)
    (h : KeyGenM.kgHandle st (.generateKey set params) = some st') :
    KeyGenM.mapGet set st'.activeShare = none ∧
    KeyGenM.mapGet set st'.activeCommit = some st.fresh ∧
    st'.paramsWrites =
      (if KeyGenM.mapGet set st.activeCommit = none ∧
          KeyGenM.mapGet set st.activeShare = none then
        (set, params) :: st.paramsWrites
      else st.paramsWrites) := by
  have hrm : ∀ m : List (Nat × Nat),
      KeyGenM.mapRemove set m =
        (KeyGenM.mapGet set m, m.filter (fun kv => kv.1 ≠ set)) := by
    intro m
    rfl
  rcases hc : KeyGenM.mapGet set st.activeCommit with _ | t
  · rcases hs : KeyGenM.mapGet set st.activeShare with _ | u
    · simp only [KeyGenM.kgHandle, hrm, hc, hs] at h
      obtain rfl := Option.some.inj h
      refine ⟨?_, ?_, ?_⟩
      · simpa using keygen_mapGet_filter_self set st.activeShare
      · simpa using keygen_mapGet_insert_self set st.fresh _
      · simp [hc, hs]
    · simp only [KeyGenM.kgHandle, hrm, hc, hs] at h
      obtain rfl := Option.some.inj h
      refine ⟨?_, ?_, ?_⟩
      · simpa using keygen_mapGet_filter_self set st.activeShare
      · simpa using keygen_mapGet_insert_self set st.fresh _
      · simp [hs]
  · simp only [KeyGenM.kgHandle, hrm, hc] at h
    obtain rfl := Option.some.inj h
    refine ⟨?_, ?_, ?_⟩
    · simpa using hinv (by simp [hc])
    · simpa using keygen_mapGet_insert_self set st.fresh _
    · simp [hc]

/-- **C4** (code bug): on a width-2 tree built exactly as `Tree::new`
mandates (generator rows of length `width · 2 = 4`), `add_leaves` with two
leaves panics instead of completing with all nodes clean: `clean` slices
the generator row to `elems.len() * 2` entries (here `4 · children = 8`),
which exceeds the row length `width · 2 = 4` once a node has more than
`width / 2` children.  A single leaf (within the slice bound) succeeds. -/
theorem curvetree_add_leaves_panics :
    (CurveTree.treeNew 0 2 [[1, 1, 1, 1]] [[1, 1, 1, 1]] :
        Option (CurveTree.TreeM (ZMod 5) (ZMod 5) (ZMod 5) (ZMod 5))) =
      some Ex.c4Tree ∧
    CurveTree.addLeaves 0 0 Ex.c4Coords Ex.c4Coords Ex.c4Ped Ex.c4Ped
        Ex.c4Tree [3, 4] = none ∧
    (CurveTree.addLeaves 0 0 Ex.c4Coords Ex.c4Coords Ex.c4Ped Ex.c4Ped
        Ex.c4Tree [3]).isSome = true :=
  ⟨rfl, rfl, rfl⟩

section ReplayProofs

variable {Rest Tx Msg : Type} (procTx : Rest → Tx → Rest × List Msg)

theorem scanner_handleEvents_skip (hash : Nat) (db : Tributary.Db Rest)
    (txs : List Tx) (i : Nat)
    (h : ∀ j, j < txs.length → db.handledEvent hash (i + j)) :
    Tributary.handleEvents procTx hash db txs i = (db, []) := by
  induction txs generalizing i with
  | nil => rfl
  | cons t rest ih =>
    have h0 : db.handledEvent hash i := by simpa using h 0 (by simp)
    simp only [Tributary.handleEvents, h0, if_true]
    exact ih (i + 1) (fun j hj => by
      simpa [show i + 1 + j = i + (j + 1) by omega] using
        h (j + 1) (by simpa using hj))

theorem scanner_handleEvents_mono (hash : Nat) (db : Tributary.Db Rest)
    (txs : List Tx) (i : Nat) (x : Nat × Nat) (hx : x ∈ db.handled) :
    x ∈ (Tributary.handleEvents procTx hash db txs i).1.handled := by
  induction txs generalizing db i with
  | nil => exact hx
  | cons t rest ih =>
    by_cases h0 : db.handledEvent hash i
    · simp only [Tributary.handleEvents, h0, if_true]
      exact ih db (i + 1) hx
    · simp only [Tributary.handleEvents, h0, if_false, Bool.false_eq_true]
      exact ih _ (i + 1) (by
        simp only [Tributary.Db.handleEvent, List.mem_cons]
        exact Or.inr hx)

theorem scanner_handleEvents_marks (hash : Nat) (db : Tributary.Db Rest)
    (txs : List Tx) (i : Nat) (j : Nat) (hj : j < txs.length) :
    (hash, i + j) ∈ (Tributary.handleEvents procTx hash db txs i).1.handled := by
  induction txs generalizing db i j with
  | nil => simp at hj
  | cons t rest ih =>
    by_cases h0 : db.handledEvent hash i
    · simp only [Tributary.handleEvents, h0, if_true]
      match j with
      | 0 =>
        have h1 : (hash, i + 0) ∈ db.handled := by
          simpa [Tributary.Db.handledEvent] using h0
        exact scanner_handleEvents_mono procTx hash db rest (i + 1) _ h1
      | j + 1 =>
        have := ih db (i + 1) j (by simpa using hj)
        simpa [show i + 1 + j = i + (j + 1) by omega] using this
    · simp only [Tributary.handleEvents, h0, if_false, Bool.false_eq_true]
      match j with
      | 0 =>
        apply scanner_handleEvents_mono
        simp [Tributary.Db.handleEvent]
      | j + 1 =>
        have := ih
          (Tributary.Db.handleEvent { db with core := (procTx db.core t).1 }
            hash i) (i + 1) j (by simpa using hj)
        simpa [show i + 1 + j = i + (j + 1) by omega] using this

theorem scanner_handleBlock_skip (db : Tributary.Db Rest)
    (b : Tributary.BlockM Tx)
    (h : ∀ i, i < b.txs.length → db.handledEvent b.hash i) :
    Tributary.handleBlock procTx db b = (db, []) :=
  scanner_handleEvents_skip procTx b.hash db b.txs 0
    (fun j hj => by simpa using h j hj)

theorem scanner_handleBlock_mono (db : Tributary.Db Rest)
    (b : Tributary.BlockM Tx) (x : Nat × Nat) (hx : x ∈ db.handled) :
    x ∈ (Tributary.handleBlock procTx db b).1.handled :=
  scanner_handleEvents_mono procTx b.hash db b.txs 0 x hx

theorem scanner_handleBlock_marks (db : Tributary.Db Rest)
    (b : Tributary.BlockM Tx) (j : Nat) (hj : j < b.txs.length) :
    (b.hash, j) ∈ (Tributary.handleBlock procTx db b).1.handled := by
  simpa using scanner_handleEvents_marks procTx b.hash db b.txs 0 j hj

theorem scanner_loop_mono (db : Tributary.Db Rest)
    (blocks : List (Tributary.BlockM Tx)) (x : Nat × Nat)
    (hx : x ∈ db.handled) :
    x ∈ (Tributary.handleBlocksLoop procTx db blocks).1.handled := by
  induction blocks generalizing db with
  | nil => exact hx
  | cons b rest ih =>
    simp only [Tributary.handleBlocksLoop]
    exact ih _ (scanner_handleBlock_mono procTx db b x hx)

theorem scanner_loop_marks (b : Tributary.BlockM Tx) (j : Nat)
    (hj : j < b.txs.length) :
    ∀ (blocks : List (Tributary.BlockM Tx)) (db : Tributary.Db Rest),
      b ∈ blocks →
      (b.hash, j) ∈ (Tributary.handleBlocksLoop procTx db blocks).1.handled := by
  intro blocks
  induction blocks with
  | nil =>
    intro db hb
    simp at hb
  | cons c rest ih =>
    intro db hb
    simp only [Tributary.handleBlocksLoop]
    rcases List.mem_cons.mp hb with rfl | hb2
    · exact scanner_loop_mono procTx _ rest _
        (scanner_handleBlock_marks procTx db b j hj)
    · exact ih _ hb2

theorem scanner_loop_lastBlock (db : Tributary.Db Rest)
    (blocks : List (Tributary.BlockM Tx)) :
    (Tributary.handleBlocksLoop procTx db blocks).1.lastBlock =
      blocks.foldl (fun _ b => b.hash) db.lastBlock := by
  induction blocks generalizing db with
  | nil => rfl
  | cons b rest ih =>
    simp only [Tributary.handleBlocksLoop, List.foldl_cons]
    rw [ih]

theorem scanner_loop_skip (db : Tributary.Db Rest)
    (blocks : List (Tributary.BlockM Tx))
    (h : ∀ b ∈ blocks, ∀ j, j < b.txs.length → db.handledEvent b.hash j) :
    Tributary.handleBlocksLoop procTx db blocks =
      ({ db with lastBlock := blocks.foldl (fun _ b => b.hash) db.lastBlock },
        []) := by
  induction blocks generalizing db with
  | nil => rfl
  | cons b rest ih =>
    simp only [Tributary.handleBlocksLoop]
    rw [scanner_handleBlock_skip procTx db b (h b (by simp))]
    rw [ih { db with lastBlock := b.hash }
      (fun c hc j hj => h c (by simp [hc]) j hj)]
    simp

theorem scanner_blocksAfter_gh (gh : Nat)
    (chain : List (Tributary.BlockM Tx)) :
    Tributary.blocksAfter gh chain gh = chain := by
  unfold Tributary.blocksAfter
  simp

theorem scanner_blocksAfter_nil (gh h : Nat) :
    Tributary.blocksAfter gh ([] : List (Tributary.BlockM Tx)) h =
      if h = gh then [] else [] := by
  unfold Tributary.blocksAfter
  split <;> rfl

theorem scanner_blocksAfter_cons (gh h : Nat) (c : Tributary.BlockM Tx)
    (rest : List (Tributary.BlockM Tx)) (hne : h ≠ gh) :
    Tributary.blocksAfter gh (c :: rest) h =
      if c.hash = h then rest else Tributary.blocksAfter gh rest h := by
  conv_lhs => unfold Tributary.blocksAfter
  rw [if_neg hne]

theorem scanner_blocksAfter_subset (gh h : Nat) :
    ∀ (chain : List (Tributary.BlockM Tx)) (b : Tributary.BlockM Tx),
      b ∈ Tributary.blocksAfter gh chain h → b ∈ chain := by
  intro chain
  induction chain with
  | nil =>
    intro b hb
    by_cases hgh : h = gh
    · subst hgh
      rwa [scanner_blocksAfter_gh] at hb
    · rw [scanner_blocksAfter_nil, if_neg hgh] at hb
      exact hb
  | cons c rest ih =>
    intro b hb
    by_cases hgh : h = gh
    · subst hgh
      rwa [scanner_blocksAfter_gh] at hb
    · rw [scanner_blocksAfter_cons gh h c rest hgh] at hb
      by_cases hch : c.hash = h
      · rw [if_pos hch] at hb
        exact List.mem_cons_of_mem c hb
      · rw [if_neg hch] at hb
        exact List.mem_cons_of_mem c (ih b hb)

theorem scanner_foldl_hash_init (l : List (Tributary.BlockM Tx))
    (hl : l ≠ []) (i1 i2 : Nat) :
    l.foldl (fun _ b => b.hash) i1 = l.foldl (fun _ b => b.hash) i2 := by
  cases l with
  | nil => exact absurd rfl hl
  | cons b rest => simp only [List.foldl_cons]

theorem scanner_blocksAfter_foldl_mem (gh h : Nat) (hgh : h ≠ gh) :
    ∀ chain : List (Tributary.BlockM Tx),
      h ∈ chain.map Tributary.BlockM.hash →
      (Tributary.blocksAfter gh chain h).foldl (fun _ b => b.hash) h =
        chain.foldl (fun _ b => b.hash) gh := by
  intro chain
  induction chain with
  | nil =>
    intro hh
    simp at hh
  | cons c rest ih =>
    intro hh
    rw [scanner_blocksAfter_cons gh h c rest hgh]
    by_cases hch : c.hash = h
    · rw [if_pos hch]
      cases rest with
      | nil =>
        simpa [List.foldl_cons] using hch.symm
      | cons d rest2 => simp only [List.foldl_cons]
    · have hh2 : h ∈ rest.map Tributary.BlockM.hash := by
        simp only [List.map_cons, List.mem_cons] at hh
        rcases hh with hh | hh
        · exact absurd hh.symm hch
        · exact hh
      rw [if_neg hch, ih hh2]
      cases rest with
      | nil => simp at hh2
      | cons d rest2 => simp only [List.foldl_cons]

theorem scanner_blocksAfter_foldl (gh : Nat)
    (chain : List (Tributary.BlockM Tx)) (h : Nat)
    (hh : h = gh ∨ h ∈ chain.map Tributary.BlockM.hash) :
    (Tributary.blocksAfter gh chain h).foldl (fun _ b => b.hash) h =
      chain.foldl (fun _ b => b.hash) gh := by
  by_cases hgh : h = gh
  · subst hgh
    rw [scanner_blocksAfter_gh]
  · rcases hh with rfl | hh
    · exact absurd rfl hgh
    · exact scanner_blocksAfter_foldl_mem gh h hgh chain hh

/-- **C3**: processing is guarded by the `HandledEvent` marker — a block
all of whose events are marked is skipped entirely (no state change, no
outbound message) — and consequently, after a full run of
`handle_new_blocks` from the genesis cursor, re-running it from any
earlier `last_block` cursor over the already-processed log emits no
outbound messages and returns the identical final state, so the
cumulative outbound message sequence is unchanged by the replay.  Holds
for every per-transaction effect `procTx`. -/
theorem scanner_replay_determinism (gh : Nat)
    (chain : List (Tributary.BlockM Tx)) (db0 : Tributary.Db Rest)
    (hcur : db0.lastBlock = gh) (s1 : Tributary.Db Rest) (msgs : List Msg)
    (hrun : Tributary.handleNewBlocks procTx gh chain db0 = (s1, msgs)) :
    (∀ (db : Tributary.Db Rest) (b : Tributary.BlockM Tx),
      (∀ i, i < b.txs.length → db.handledEvent b.hash i) →
      Tributary.handleBlock procTx db b = (db, [])) ∧
    (∀ h, h = gh ∨ h ∈ chain.map Tributary.BlockM.hash →
      Tributary.handleNewBlocks procTx gh chain { s1 with lastBlock := h } =
        (s1, [])) := by
  constructor
  · intro db b hb
    exact scanner_handleBlock_skip procTx db b hb
  · intro h hh
    have hchain : Tributary.blocksAfter gh chain db0.lastBlock = chain := by
      rw [hcur]
      exact scanner_blocksAfter_gh gh chain
    have hs1 : (Tributary.handleBlocksLoop procTx db0 chain).1 = s1 := by
      unfold Tributary.handleNewBlocks at hrun
      rw [hchain] at hrun
      rw [hrun]
    have hmarked : ∀ b ∈ chain, ∀ j, j < b.txs.length →
        (b.hash, j) ∈ s1.handled := by
      intro b hb j hj
      rw [← hs1]
      exact scanner_loop_marks procTx b j hj chain db0 hb
    unfold Tributary.handleNewBlocks
    have hsub : ∀ b ∈ Tributary.blocksAfter gh chain h, ∀ j,
        j < b.txs.length →
        ({ s1 with lastBlock := h } : Tributary.Db Rest).handledEvent
          b.hash j := by
      intro b hb j hj
      have hmem : (b.hash, j) ∈ s1.handled :=
        hmarked b (scanner_blocksAfter_subset gh h chain b hb) j hj
      simpa [Tributary.Db.handledEvent] using hmem
    rw [scanner_loop_skip procTx _ _ hsub]
    have hlast : s1.lastBlock = chain.foldl (fun _ b => b.hash) gh := by
      rw [← hs1, scanner_loop_lastBlock, hcur]
    have hfold :
        (Tributary.blocksAfter gh chain h).foldl (fun _ b => b.hash) h =
          s1.lastBlock := by
      rw [hlast]
      exact scanner_blocksAfter_foldl gh chain h hh
    rw [hfold]

end ReplayProofs

theorem list_filterMap_length_eq {α β : Type} (f : α → Option β)
    (p : α → Bool) (l : List α) (hf : ∀ a ∈ l, (f a).isSome = p a) :
    (l.filterMap f).length = (l.filter p).length := by
  induction l with
  | nil => rfl
  | cons a rest ih =>
    have ha := hf a (by simp)
    have hrest := fun b hb => hf b (List.mem_cons_of_mem a hb)
    rcases hfa : f a with _ | b
    · rw [hfa] at ha
      simp only [List.filterMap_cons, hfa, List.filter_cons, ← ha]
      simpa using ih hrest
    · rw [hfa] at ha
      simp only [List.filterMap_cons, hfa, List.filter_cons, ← ha]
      simpa using ih hrest

theorem list_filterMap_fst_eq {α γ δ : Type} (f : α → Option (γ × δ))
    (p : α → Bool) (g : α → γ) (l : List α)
    (hf : ∀ a ∈ l, (f a).isSome = p a ∧ ∀ b, f a = some b → b.1 = g a) :
    (l.filterMap f).map Prod.fst = (l.filter p).map g := by
  induction l with
  | nil => rfl
  | cons a rest ih =>
    have ha := (hf a (by simp)).1
    have hfst := (hf a (by simp)).2
    have hrest := fun b hb => hf b (List.mem_cons_of_mem a hb)
    rcases hfa : f a with _ | b
    · rw [hfa] at ha
      simp only [List.filterMap_cons, hfa, List.filter_cons, ← ha]
      simpa using ih hrest
    · rw [hfa] at ha
      simp only [List.filterMap_cons, hfa, List.filter_cons, ← ha,
        Option.isSome_some, if_true, List.map_cons]
      simp only [hfst b hfa, ih hrest]

theorem list_nodup_filter_mem_length (l1 l2 : List Nat) (h1 : l1.Nodup)
    (h2 : l2.Nodup) (hsub : ∀ x ∈ l2, x ∈ l1) :
    (l1.filter (fun x => x ∈ l2)).length = l2.length := by
  have hfn : (l1.filter (fun x => x ∈ l2)).Nodup := h1.filter _
  have hmem : ∀ x, x ∈ l1.filter (fun x => x ∈ l2) ↔ x ∈ l2 := by
    intro x
    simp only [List.mem_filter, decide_eq_true_eq]
    constructor
    · exact fun h => h.2
    · exact fun h => ⟨hsub x h, h⟩
  have hts : (l1.filter (fun x => x ∈ l2)).toFinset = l2.toFinset := by
    ext x
    simp only [List.mem_toFinset]
    exact hmem x
  calc (l1.filter (fun x => x ∈ l2)).length
      = (l1.filter (fun x => x ∈ l2)).toFinset.card :=
        (List.toFinset_card_of_nodup hfn).symm
    _ = l2.toFinset.card := by rw [hts]
    _ = l2.length := List.toFinset_card_of_nodup h2

/-- **C2**: for a signed message transaction reaching the storage step
(recognized id or the zero DKG id, no prior submission by this signer,
current attempt), `handle` returns `Some(map)` iff storing the submission
brings the distinct-signer count for `(kind, id, attempt)` to exactly
`needed` (otherwise it returns `None`); the returned map has exactly
`needed` entries keyed by `i(validator)` in the canonical
`CohortSpec.validators()` order, mapping the submitting signer to the
just-submitted bytes and every other present validator to their stored
bytes. -/
theorem scanner_handle_threshold (spec : Tributary.Cohort)
    (db : Tributary.DbCore) (zone : Tributary.Zone) (label : String)
    (needed id attempt : Nat) (bytes : List Nat) (signer : Nat)
    (hzone : zone = .dkg → id = 0)
    (hrec : zone ≠ .dkg → db.recognizedId zone id = true)
    (hkeys : (db.dataMap.map (fun kv => kv.1)).Nodup)
    (hval : spec.validators.Nodup)
    (hsig : signer ∈ spec.validators)
    (hstored : ∀ kv ∈ db.dataMap, kv.1.1 = label → kv.1.2.1 = id →
      kv.1.2.2.1 = attempt → kv.1.2.2.2 ∈ spec.validators)
    (hnoprior : db.data label id attempt signer = none)
    (hcurr : attempt = db.attempt id) :
    ((∃ m, (Tributary.handle spec db zone label needed id attempt bytes
        signer).1 = .ready m) ↔
      db.countFor label id attempt + 1 = needed) ∧
    (db.countFor label id attempt + 1 ≠ needed →
      (Tributary.handle spec db zone label needed id attempt bytes
        signer).1 = .nothing) ∧
    (∀ m, (Tributary.handle spec db zone label needed id attempt bytes
        signer).1 = .ready m →
      m.length = needed ∧
      ((spec.i signer).getD 0, bytes) ∈ m ∧
      (∀ v ∈ spec.validators, v ≠ signer → ∀ d,
        db.data label id attempt v = some d → ((spec.i v).getD 0, d) ∈ m) ∧
      m.map Prod.fst =
        (spec.validators.filter (fun v =>
          v = signer ∨ (db.data label id attempt v).isSome)).map
          (fun v => (spec.i v).getD 0)) := by
  -- notation for the stored key and the post-insertion database
  set key : String × Nat × Nat × Nat := (label, id, attempt, signer) with hkey
  set db2 : Tributary.DbCore :=
    { db with dataMap := (key, bytes) :: db.dataMap } with hdb2
  -- the admission check reduces `handle` to `handleInner`
  have hstep : Tributary.handle spec db zone label needed id attempt bytes
      signer =
      Tributary.handleInner spec db label needed id attempt bytes signer := by
    rcases zone with _ | _ | _
    · have h0 : id = 0 := hzone rfl
      simp [Tributary.handle, h0]
    · have hr := hrec (by simp)
      simp [Tributary.handle, hr]
    · have hr := hrec (by simp)
      simp [Tributary.handle, hr]
  -- no prior entry for the signer's key
  have hnokey : ∀ kv ∈ db.dataMap, kv.1 ≠ key := by
    intro kv hkv
    rcases hf : db.dataMap.find? (fun kv => kv.1 = key) with _ | e
    · have := List.find?_eq_none.mp hf kv hkv
      simpa using this
    · exfalso
      have : db.data label id attempt signer =
          ((db.dataMap.find? (fun kv => kv.1 = key)).map (fun kv => kv.2)) :=
        rfl
      rw [hf] at this
      rw [hnoprior] at this
      simp at this
  have hfilter :
      db.dataMap.filter (fun kv => kv.1 ≠ key) = db.dataMap := by
    apply List.filter_eq_self.mpr
    intro kv hkv
    simpa using hnokey kv hkv
  -- `set_data` appends the new entry and counts one more distinct signer
  have hcount2 : db2.countFor label id attempt =
      db.countFor label id attempt + 1 := by
    simp only [Tributary.DbCore.countFor, hdb2, List.filter_cons]
    rw [if_pos (by simp [hkey])]
    simp
  have hsd : Tributary.DbCore.setData db label id attempt signer bytes =
      (db.countFor label id attempt + 1, db2) := by
    have h1 : Tributary.DbCore.setData db label id attempt signer bytes =
        (db2.countFor label id attempt, db2) := by
      simp only [Tributary.DbCore.setData, ← hkey, hfilter, hdb2]
    rw [h1, hcount2]
  -- lookups in the post-insertion database
  have hdata2 : ∀ v, Tributary.DbCore.data db2 label id attempt v =
      if v = signer then some bytes else db.data label id attempt v := by
    intro v
    by_cases hv : v = signer
    · subst hv
      rw [if_pos rfl]
      simp only [Tributary.DbCore.data, hdb2]
      rw [List.find?_cons_of_pos _ (by simp [hkey])]
      rfl
    · rw [if_neg hv]
      simp only [Tributary.DbCore.data, hdb2]
      rw [List.find?_cons_of_neg _ (by
        simp [hkey]
        exact fun hcon => hv hcon.symm)]
  -- the distinct signers present for `(label, id, attempt)` after storing
  set P : (String × Nat × Nat × Nat) × List Nat → Bool := fun kv =>
    decide (kv.1.1 = label ∧ kv.1.2.1 = id ∧ kv.1.2.2.1 = attempt) with hP
  have hPkey : P (key, bytes) = true := by
    simp [hP, hkey]
  have hPshape : ∀ kv, P kv = true →
      kv.1 = (label, id, attempt, kv.1.2.2.2) := by
    intro kv hkv
    obtain ⟨⟨a, b, c, d⟩, val⟩ := kv
    simp only [hP, decide_eq_true_eq] at hkv
    obtain ⟨h1, h2, h3⟩ := hkv
    subst h1
    subst h2
    subst h3
    rfl
  set S : List Nat := (db2.dataMap.filter P).map (fun kv => kv.1.2.2.2)
    with hSdef
  have hSlen : S.length = db.countFor label id attempt + 1 := by
    rw [hSdef, List.length_map]
    rw [show (db2.dataMap.filter P).length =
        db2.countFor label id attempt from rfl]
    exact hcount2
  have hkeys2 : (db2.dataMap.map (fun kv => kv.1)).Nodup := by
    simp only [hdb2, List.map_cons, List.nodup_cons]
    constructor
    · intro hmem
      obtain ⟨kv, hkv, hkveq⟩ := List.mem_map.mp hmem
      exact hnokey kv hkv hkveq
    · exact hkeys
  have hSnodup : S.Nodup := by
    have hsubl := List.Sublist.map (fun kv => kv.1)
      (List.filter_sublist (p := P) db2.dataMap)
    have hKnodup : ((db2.dataMap.filter P).map (fun kv => kv.1)).Nodup :=
      hkeys2.sublist hsubl
    have hSeq : S = ((db2.dataMap.filter P).map (fun kv => kv.1)).map
        (fun k => k.2.2.2) := by
      rw [hSdef, List.map_map]
      rfl
    rw [hSeq]
    apply hKnodup.map_on
    intro x hx y hy hxy
    obtain ⟨kx, hkx, hkxe⟩ := List.mem_map.mp hx
    obtain ⟨ky, hky, hkye⟩ := List.mem_map.mp hy
    have hxs := hPshape kx (List.of_mem_filter hkx)
    have hys := hPshape ky (List.of_mem_filter hky)
    rw [← hkxe, ← hkye]
    rw [← hkxe] at hxy
    rw [← hkye] at hxy
    rw [hxs, hys, hxy]
  have hmemS : ∀ v, v ∈ S ↔
      (v = signer ∨ (db.data label id attempt v).isSome = true) := by
    intro v
    constructor
    · intro hv
      obtain ⟨kv, hkv, hkveq⟩ := List.mem_map.mp hv
      have hkvP := List.of_mem_filter hkv
      have hkvmem := List.mem_of_mem_filter hkv
      rw [hdb2] at hkvmem
      rcases List.mem_cons.mp hkvmem with rfl | hkvdb
      · left
        rw [← hkveq]
      · right
        have hshape := hPshape kv hkvP
        rw [hkveq] at hshape
        simp only [Tributary.DbCore.data]
        rcases hf2 : db.dataMap.find? (fun kv2 =>
            kv2.1 = (label, id, attempt, v)) with _ | kv2
        · exfalso
          have := List.find?_eq_none.mp hf2 kv hkvdb
          simp [hshape] at this
        · rw [hf2]
          simp
    · intro hv
      rcases hv with rfl | hv
      · rw [hSdef]
        apply List.mem_map.mpr
        refine ⟨(key, bytes), ?_, by simp [hkey]⟩
        apply List.mem_filter.mpr
        refine ⟨?_, hPkey⟩
        simp [hdb2]
      · simp only [Tributary.DbCore.data] at hv
        rcases hf2 : db.dataMap.find? (fun kv2 =>
            kv2.1 = (label, id, attempt, v)) with _ | kv
        · rw [hf2] at hv
          simp at hv
        · have hkvdb := List.mem_of_find?_eq_some hf2
          have hkveq := List.find?_some hf2
          simp only [decide_eq_true_eq] at hkveq
          rw [hSdef]
          apply List.mem_map.mpr
          refine ⟨kv, ?_, by rw [hkveq]⟩
          apply List.mem_filter.mpr
          refine ⟨by simp [hdb2, hkvdb], ?_⟩
          simp [hP, hkveq]
  have hSsub : ∀ s ∈ S, s ∈ spec.validators := by
    intro s hs
    rcases (hmemS s).mp hs with rfl | hsome
    · exact hsig
    · simp only [Tributary.DbCore.data] at hsome
      rcases hf2 : db.dataMap.find? (fun kv2 =>
          kv2.1 = (label, id, attempt, s)) with _ | kv
      · rw [hf2] at hsome
        simp at hsome
      · have hkvdb := List.mem_of_find?_eq_some hf2
        have hkveq := List.find?_some hf2
        simp only [decide_eq_true_eq] at hkveq
        have hmem := hstored kv hkvdb (by rw [hkveq]) (by rw [hkveq])
          (by rw [hkveq])
        rw [hkveq] at hmem
        simpa using hmem
  -- the buildMap over the post-insertion database
  set f : Nat → Option (Nat × List Nat) := fun v =>
    if v = signer then some ((spec.i v).getD 0, bytes)
    else match Tributary.DbCore.data db2 label id attempt v with
      | some d => some ((spec.i v).getD 0, d)
      | none => none with hf
  have hbm : Tributary.buildMap spec db2 label id attempt bytes signer =
      spec.validators.filterMap f := by
    unfold Tributary.buildMap
    apply List.filterMap_congr
    intro v _
    rw [hf]
  have hfspec : ∀ v ∈ spec.validators,
      (f v).isSome = decide (v = signer ∨
        (db.data label id attempt v).isSome = true) ∧
      ∀ b, f v = some b → b.1 = (spec.i v).getD 0 := by
    intro v _
    constructor
    · simp only [hf]
      by_cases hv : v = signer
      · simp [hv]
      · rw [if_neg hv, hdata2 v, if_neg hv]
        rcases hdd : db.data label id attempt v with _ | d
        · simp [hv]
        · simp [hv]
    · intro b hb
      simp only [hf] at hb
      by_cases hv : v = signer
      · rw [if_pos hv] at hb
        rw [← Option.some.inj hb]
      · rw [if_neg hv] at hb
        rcases hdd : Tributary.DbCore.data db2 label id attempt v with _ | d
        · rw [hdd] at hb
          simp at hb
        · rw [hdd] at hb
          rw [← Option.some.inj hb]
  have hbmlen :
      (Tributary.buildMap spec db2 label id attempt bytes signer).length =
        db.countFor label id attempt + 1 := by
    rw [hbm]
    rw [list_filterMap_length_eq f
      (fun v => decide (v = signer ∨
        (db.data label id attempt v).isSome = true))
      spec.validators (fun v hv => (hfspec v hv).1)]
    rw [show spec.validators.filter (fun v => decide (v = signer ∨
        (db.data label id attempt v).isSome = true)) =
      spec.validators.filter (fun v => v ∈ S) from
      List.filter_congr (fun v _ => by
        simp only [decide_eq_true_eq, decide_eq_decide]
        exact (hmemS v).symm)]
    rw [list_nodup_filter_mem_length spec.validators S hval hSnodup hSsub]
    exact hSlen
  -- reduce the handler
  rw [hstep]
  have hmain : Tributary.handleInner spec db label needed id attempt bytes
      signer =
      (if db.countFor label id attempt + 1 = needed then
        (if (Tributary.buildMap spec db2 label id attempt bytes
            signer).length = needed then
          (Tributary.HandleOut.ready (Tributary.buildMap spec db2 label id
            attempt bytes signer), db2)
        else (.panic "assert_eq: data.len() == needed", db2))
      else (.nothing, db2)) := by
    unfold Tributary.handleInner
    rw [hnoprior]
    rw [← hcurr]
    rw [if_neg (by omega), if_neg (by omega)]
    rw [hsd]
  rw [hmain]
  by_cases hn : db.countFor label id attempt + 1 = needed
  · rw [if_pos hn, if_pos (by rw [hbmlen]; exact hn)]
    refine ⟨⟨fun _ => hn, fun _ => ⟨_, rfl⟩⟩, fun hc => absurd hn hc,
      fun m hm => ?_⟩
    have hmeq : m = Tributary.buildMap spec db2 label id attempt bytes
        signer := by
      cases hm
      rfl
    subst hmeq
    refine ⟨by rw [hbmlen]; exact hn, ?_, ?_, ?_⟩
    · rw [hbm]
      apply List.mem_filterMap.mpr
      refine ⟨signer, hsig, ?_⟩
      rw [hf]
      simp
    · intro v hv hvne d hd
      rw [hbm]
      apply List.mem_filterMap.mpr
      refine ⟨v, hv, ?_⟩
      simp only [hf]
      rw [if_neg hvne, hdata2 v, if_neg hvne, hd]
    · rw [hbm]
      rw [list_filterMap_fst_eq f
        (fun v => decide (v = signer ∨
          (db.data label id attempt v).isSome = true))
        (fun v => (spec.i v).getD 0) spec.validators hfspec]
  · rw [if_neg hn]
    refine ⟨⟨fun hex => ?_, fun h => absurd h hn⟩, fun _ => rfl,
      fun m hm => ?_⟩
    · obtain ⟨m, hm⟩ := hex
      simp at hm
    · simp at hm

/-- Witness for C2: a two-validator cohort at threshold 2 with one stored
submission; the new submission completes the map in canonical order. -/
theorem scanner_handle_threshold_witness :
    Ex.dbThresh.countFor "batch_preprocess" 1 0 + 1 = 2 ∧
    (Tributary.handle Ex.specEx Ex.dbThresh .batch "batch_preprocess" 2 1 0
        [7] 10).1 = .ready [(1, [7]), (2, [9])] ∧
    (∃ m, (Tributary.handle Ex.specEx Ex.dbThresh .batch "batch_preprocess"
        2 1 0 [7] 10).1 = .ready m) :=
  ⟨by decide, by decide,
    (scanner_handle_threshold Ex.specEx Ex.dbThresh .batch
        "batch_preprocess" 2 1 0 [7] 10 (by decide) (by decide) (by decide)
        (by decide) (by decide) (by decide) (by decide) (by decide)).1.mpr
      (by decide)⟩

/-- Witness for C3: a concrete two-block chain, fully processed from the
genesis cursor, then replayed from the first block's hash. -/
theorem scanner_replay_determinism_witness :
    (Tributary.handleBlock Ex.procEx
        (⟨18, [(2, 1), (2, 0), (1, 0)], 2⟩ : Tributary.Db Nat)
        (⟨2, [6, 7]⟩ : Tributary.BlockM Nat) =
      ((⟨18, [(2, 1), (2, 0), (1, 0)], 2⟩ : Tributary.Db Nat), [])) ∧
    Tributary.handleNewBlocks Ex.procEx 100 Ex.chainEx
        { (⟨18, [(2, 1), (2, 0), (1, 0)], 2⟩ : Tributary.Db Nat) with
          lastBlock := 1 } =
      ((⟨18, [(2, 1), (2, 0), (1, 0)], 2⟩ : Tributary.Db Nat), []) := by
  have main := scanner_replay_determinism Ex.procEx 100 Ex.chainEx Ex.dbEx0
    (by decide) ⟨18, [(2, 1), (2, 0), (1, 0)], 2⟩ [5, 6, 7] (by decide)
  exact ⟨main.1 _ _ (by decide), main.2 1 (by decide)⟩

theorem list_getD_of_get? {α : Type} (l : List α) (i : Nat) (x d : α)
    (h : l.get? i = some x) : l.getD i d = x := by
  simp only [List.getD_eq_getElem?_getD, List.get?_eq_getElem?] at h ⊢
  simp [h]

theorem list_mapM_some {α β : Type} (f : α → Option β) :
    ∀ l : List α, (∀ a ∈ l, (f a).isSome) → ∃ r, l.mapM f = some r := by
  intro l
  induction l with
  | nil =>
    intro _
    exact ⟨[], rfl⟩
  | cons a rest ih =>
    intro h
    obtain ⟨b, hb⟩ := Option.isSome_iff_exists.mp (h a (by simp))
    obtain ⟨r, hr⟩ := ih (fun x hx => h x (by simp [hx]))
    refine ⟨b :: r, ?_⟩
    rw [List.mapM_cons, hb, hr]
    rfl

theorem list_mapM_length {α β : Type} (f : α → Option β) :
    ∀ (l : List α) (r : List β), l.mapM f = some r → r.length = l.length := by
  intro l
  induction l with
  | nil =>
    intro r hr
    simp only [List.mapM_nil] at hr
    cases hr
    rfl
  | cons a rest ih =>
    intro r hr
    rw [List.mapM_cons] at hr
    rcases ha : f a with _ | b
    · rw [ha] at hr
      cases hr
    · rw [ha] at hr
      rcases hrest : rest.mapM f with _ | r2
      · rw [hrest] at hr
        cases hr
      · rw [hrest] at hr
        cases hr
        simpa using ih r2 hrest

section CircuitProofs

variable {F G : Type} [Field F] [DecidableEq F] [DecidableEq G]

omit [DecidableEq F] in
theorem acx_evalRowM_eq (vec : List F) (row : List (Nat × F))
    (h : ∀ e ∈ row, e.1 < vec.length) :
    ACircuit.evalRowM vec row =
      some (ACircuit.rowSum row (fun i => vec.getD i 0)) := by
  induction row with
  | nil => simp [ACircuit.evalRowM, ACircuit.rowSum]
  | cons e rest ih =>
    obtain ⟨x, hx⟩ : ∃ x, vec.get? e.1 = some x :=
      ⟨vec.get ⟨e.1, h e (by simp)⟩, List.get?_eq_get _⟩
    have hgd : vec.getD e.1 0 = x := list_getD_of_get? vec e.1 x 0 hx
    have hrest := ih (fun e2 he2 => h e2 (by simp [he2]))
    rw [List.get?_eq_getElem?] at hx
    simp [ACircuit.evalRowM, hx, hrest, ACircuit.rowSum, hgd]

omit [DecidableEq F] in
theorem acx_evalRowO_eq (aL aR : List F) (row : List (Nat × F))
    (h : ∀ e ∈ row, e.1 < aL.length ∧ e.1 < aR.length) :
    ACircuit.evalRowO aL aR row =
      some (ACircuit.rowSum row
        (fun i => aL.getD i 0 * aR.getD i 0)) := by
  induction row with
  | nil => simp [ACircuit.evalRowO, ACircuit.rowSum]
  | cons e rest ih =>
    obtain ⟨x, hx⟩ : ∃ x, aL.get? e.1 = some x :=
      ⟨aL.get ⟨e.1, (h e (by simp)).1⟩, List.get?_eq_get _⟩
    obtain ⟨y, hy⟩ : ∃ y, aR.get? e.1 = some y :=
      ⟨aR.get ⟨e.1, (h e (by simp)).2⟩, List.get?_eq_get _⟩
    have hgx : aL.getD e.1 0 = x := list_getD_of_get? aL e.1 x 0 hx
    have hgy : aR.getD e.1 0 = y := list_getD_of_get? aR e.1 y 0 hy
    have hrest := ih (fun e2 he2 => h e2 (by simp [he2]))
    rw [List.get?_eq_getElem?] at hx
    rw [List.get?_eq_getElem?] at hy
    simp [ACircuit.evalRowO, hx, hy, hrest, ACircuit.rowSum, hgx, hgy]

theorem acx_check_step (aL aR v : List F) (con : ACircuit.ConstraintM F)
    (rest : List (ACircuit.ConstraintM F)) (hr : ACircuit.rowRanges aL aR v con) :
    ACircuit.checkConstraints true aL aR v (con :: rest) =
      (if ACircuit.constraintEval aL aR v con = con.c then
        ACircuit.checkConstraints true aL aR v rest
      else Except.error ("faulty constraint: " ++ con.label)) := by
  obtain ⟨h1, h2, h3, h4⟩ := hr
  rw [ACircuit.checkConstraints]
  rw [if_pos rfl]
  rw [acx_evalRowM_eq aL con.WL h1, acx_evalRowM_eq aR con.WR h2,
    acx_evalRowO_eq aL aR con.WO h3, acx_evalRowM_eq v con.WV h4]
  rfl

theorem acx_check_ok_iff (aL aR v : List F) :
    ∀ cons : List (ACircuit.ConstraintM F),
      (∀ con ∈ cons, ACircuit.rowRanges aL aR v con) →
      (ACircuit.checkConstraints true aL aR v cons = .ok () ↔
        ∀ con ∈ cons, ACircuit.constraintEval aL aR v con = con.c) := by
  intro cons
  induction cons with
  | nil =>
    intro _
    simp [ACircuit.checkConstraints]
  | cons con rest ih =>
    intro h
    rw [acx_check_step aL aR v con rest (h con (by simp))]
    by_cases he : ACircuit.constraintEval aL aR v con = con.c
    · rw [if_pos he, ih (fun c2 hc2 => h c2 (by simp [hc2]))]
      constructor
      · intro hall c2 hc2
        rcases List.mem_cons.mp hc2 with rfl | hc2
        · exact he
        · exact hall c2 hc2
      · intro hall c2 hc2
        exact hall c2 (by simp [hc2])
    · rw [if_neg he]
      constructor
      · intro hcon
        cases hcon
      · intro hall
        exact absurd (hall con (by simp)) he

theorem acx_check_error (aL aR v : List F) :
    ∀ cons : List (ACircuit.ConstraintM F),
      (∀ con ∈ cons, ACircuit.rowRanges aL aR v con) →
      ∀ msg, ACircuit.checkConstraints true aL aR v cons = .error msg →
      ∃ pre con post, cons = pre ++ con :: post ∧
        (∀ c2 ∈ pre, ACircuit.constraintEval aL aR v c2 = c2.c) ∧
        ACircuit.constraintEval aL aR v con ≠ con.c ∧
        msg = "faulty constraint: " ++ con.label := by
  intro cons
  induction cons with
  | nil =>
    intro _ msg hmsg
    simp [ACircuit.checkConstraints] at hmsg
  | cons con rest ih =>
    intro h msg hmsg
    rw [acx_check_step aL aR v con rest (h con (by simp))] at hmsg
    by_cases he : ACircuit.constraintEval aL aR v con = con.c
    · rw [if_pos he] at hmsg
      obtain ⟨pre, con2, post, heq, hpre, hcon2, hm⟩ :=
        ih (fun c2 hc2 => h c2 (by simp [hc2])) msg hmsg
      refine ⟨con :: pre, con2, post, by simp [heq], ?_, hcon2, hm⟩
      intro c2 hc2
      rcases List.mem_cons.mp hc2 with rfl | hc2
      · exact he
      · exact hpre c2 hc2
    · rw [if_neg he] at hmsg
      refine ⟨[], con, rest, by simp, by simp, he, ?_⟩
      cases hmsg
      rfl

theorem except_bind_ok {ε α β : Type} (a : α) (f : α → Except ε β) :
    (Except.ok a : Except ε α) >>= f = f a := rfl

theorem except_bind_error {ε α β : Type} (e : ε) (f : α → Except ε β) :
    (Except.error e : Except ε α) >>= f = Except.error e := rfl

theorem option_bind_some {α β : Type} (a : α) (f : α → Option β) :
    (some a >>= f) = f a := rfl

theorem acx_witProj_some {F : Type} [Field F] (l : List F) (n : Nat)
    (h : n ≤ l.length) :
    ∃ r, ACircuit.witProj (some l) n = some r ∧ r.length = n := by
  have hwp : ACircuit.witProj (some l) n =
      (List.range n).mapM (fun i => (l.get? i).map some) := rfl
  obtain ⟨r, hr⟩ := list_mapM_some (fun i => (l.get? i).map some)
    (List.range n) (by
      intro i hi
      have hlt : i < l.length := lt_of_lt_of_le (List.mem_range.mp hi) h
      obtain ⟨x, hx⟩ : ∃ x, l.get? i = some x :=
        ⟨l.get ⟨i, hlt⟩, List.get?_eq_get _⟩
      show ((l.get? i).map some).isSome = true
      rw [hx]
      rfl)
  refine ⟨r, by rw [hwp]; exact hr, ?_⟩
  have := list_mapM_length _ (List.range n) r hr
  simpa using this

theorem acx_witProjO_some {F : Type} [Field F] (aL aR : List F) (n : Nat)
    (hL : n ≤ aL.length) (hR : n ≤ aR.length) :
    ∃ r, ACircuit.witProjO (some (aL, aR)) n = some r ∧ r.length = n := by
  have hwp : ACircuit.witProjO (some (aL, aR)) n =
      (List.range n).mapM (fun i =>
        (aL.get? i).bind (fun x =>
          (aR.get? i).bind (fun y => some (some (x * y))))) := rfl
  obtain ⟨r, hr⟩ := list_mapM_some (fun i =>
      (aL.get? i).bind (fun x =>
        (aR.get? i).bind (fun y => some (some (x * y)))))
    (List.range n) (by
      intro i hi
      have hltL : i < aL.length := lt_of_lt_of_le (List.mem_range.mp hi) hL
      have hltR : i < aR.length := lt_of_lt_of_le (List.mem_range.mp hi) hR
      obtain ⟨x, hx⟩ : ∃ x, aL.get? i = some x :=
        ⟨aL.get ⟨i, hltL⟩, List.get?_eq_get _⟩
      obtain ⟨y, hy⟩ : ∃ y, aR.get? i = some y :=
        ⟨aR.get ⟨i, hltR⟩, List.get?_eq_get _⟩
      show ((aL.get? i).bind (fun x =>
        (aR.get? i).bind (fun y => some (some (x * y))))).isSome = true
      rw [hx, hy]
      rfl)
  refine ⟨r, by rw [hwp]; exact hr, ?_⟩
  have := list_mapM_length _ (List.range n) r hr
  simpa using this

theorem acx_addToOthers_some {F G : Type} [Field F] [DecidableEq G]
    (role : ACircuit.Role) (vals : List (Option F)) (gens : List G)
    (h : vals.length ≤ gens.length) :
    ∃ r, ACircuit.addToOthers role [] vals gens = some r := by
  unfold ACircuit.addToOthers
  have hfm : vals.enum.filterMap (fun e =>
      if (role, e.1) ∈ ([] : List (ACircuit.Role × Nat)) then none
      else some e) = vals.enum := by
    induction vals.enum with
    | nil => rfl
    | cons e rest ih => simp [ih]
  rw [hfm]
  apply list_mapM_some
  intro e he
  have hlt : e.1 < vals.length := List.fst_lt_of_mem_enum he
  obtain ⟨g, hg⟩ : ∃ g, gens.get? e.1 = some g :=
    ⟨gens.get ⟨e.1, lt_of_lt_of_le hlt h⟩, List.get?_eq_get _⟩
  rw [List.get?_eq_getElem?] at hg
  simp [hg]

section CompileProofs

variable {F G : Type} [Field F] [DecidableEq F] [DecidableEq G]

theorem acx_compileM_check (cc : G → G → F → F → G)
    (c : ACircuit.CircuitM F G) (aL aR v gamma : List F)
    (hp : c.prover = true)
    (hw : ACircuit.collectWitness cc c = some (aL, aR, v, gamma))
    (hbp : c.boundProducts = [])
    (hg1 : c.products.length ≤ c.gBold1.length)
    (hh1 : c.products.length ≤ c.hBold1.length)
    (hg2 : c.products.length ≤ c.gBold2.length)
    (hlenL : c.products.length ≤ aL.length)
    (hlenR : c.products.length ≤ aR.length) :
    (∀ msg,
      ACircuit.checkConstraints true aL aR v c.constraints = .error msg →
      ACircuit.compileM cc c = .error msg) ∧
    (ACircuit.checkConstraints true aL aR v c.constraints = .ok () →
      ∃ out, ACircuit.compileM cc c = .ok out) := by
  obtain ⟨lv, hlv, hlvlen⟩ :=
    acx_witProj_some aL c.products.length hlenL
  obtain ⟨rv, hrv, hrvlen⟩ :=
    acx_witProj_some aR c.products.length hlenR
  obtain ⟨ov, hov, hovlen⟩ :=
    acx_witProjO_some aL aR c.products.length hlenL hlenR
  obtain ⟨ol, hol⟩ := acx_addToOthers_some ACircuit.Role.l lv c.gBold1
    (by rw [hlvlen]; exact hg1)
  obtain ⟨orr, horr⟩ := acx_addToOthers_some ACircuit.Role.r rv c.hBold1
    (by rw [hrvlen]; exact hh1)
  obtain ⟨oo, hoo⟩ := acx_addToOthers_some ACircuit.Role.o ov c.gBold2
    (by rw [hovlen]; exact hg2)
  constructor
  · intro msg hmsg
    simp only [ACircuit.compileM, hp, hw, if_true, except_bind_ok,
      Option.getD_some, hmsg, except_bind_error]
  · intro hok
    refine ⟨((aL, aR, v, gamma), ACircuit.collectV c,
      (c.gBold1, c.hBold1, c.gBold2),
      ([] : List (List (Option F × G))), ol ++ orr ++ oo), ?_⟩
    simp only [ACircuit.compileM, hp, hw, if_true, except_bind_ok,
      Option.getD_some, hok, hbp, Option.map_some', List.enum_nil,
      ACircuit.ovAll, hlv, hrv, hov, hol, horr, hoo, option_bind_some]
    rfl

end CompileProofs

/-- **C8**: compilation of a prover-mode circuit (whose witness collection
succeeds, whose constraint indices are in range, and whose generator
vectors cover its products) fails exactly when some constraint's
evaluation `W_L·aL + W_R·aR + W_O·aO − W_V·v` over the witness differs
from its constant `c`, and the failure message names the first failing
constraint's label; if every constraint evaluates to its `c`, compilation
completes. -/
theorem circuit_compile_prover_self_check {F G : Type} [Field F]
    [DecidableEq F] [DecidableEq G] (cc : G → G → F → F → G)
    (c : ACircuit.CircuitM F G) (aL aR v gamma : List F)
    (hp : c.prover = true)
    (hw : ACircuit.collectWitness cc c = some (aL, aR, v, gamma))
    (hranges : ∀ con ∈ c.constraints, ACircuit.rowRanges aL aR v con)
    (hbp : c.boundProducts = [])
    (hg1 : c.products.length ≤ c.gBold1.length)
    (hh1 : c.products.length ≤ c.hBold1.length)
    (hg2 : c.products.length ≤ c.gBold2.length)
    (hlenL : c.products.length ≤ aL.length)
    (hlenR : c.products.length ≤ aR.length) :
    ((∃ out, ACircuit.compileM cc c = .ok out) ↔
      ∀ con ∈ c.constraints,
        ACircuit.constraintEval aL aR v con = con.c) ∧
    (∀ msg, ACircuit.compileM cc c = .error msg →
      ∃ pre con post, c.constraints = pre ++ con :: post ∧
        (∀ c2 ∈ pre, ACircuit.constraintEval aL aR v c2 = c2.c) ∧
        ACircuit.constraintEval aL aR v con ≠ con.c ∧
        msg = "faulty constraint: " ++ con.label) := by
  obtain ⟨herr, hok⟩ := acx_compileM_check cc c aL aR v gamma hp hw hbp hg1
    hh1 hg2 hlenL hlenR
  constructor
  · constructor
    · rintro ⟨out, hout⟩
      rcases hc : ACircuit.checkConstraints true aL aR v c.constraints
        with msg | u
      · rw [herr msg hc] at hout
        cases hout
      · exact (acx_check_ok_iff aL aR v c.constraints hranges).mp
          (by cases u; exact hc)
    · intro hall
      exact hok ((acx_check_ok_iff aL aR v c.constraints hranges).mpr hall)
  · intro msg hmsg
    rcases hc : ACircuit.checkConstraints true aL aR v c.constraints
      with msg2 | u
    · rw [herr msg2 hc] at hmsg
      have hinj := Except.error.inj hmsg
      rw [← hinj]
      exact acx_check_error aL aR v c.constraints hranges msg2 hc
    · obtain ⟨out, hout⟩ := hok (by cases u; exact hc)
      rw [hout] at hmsg
      cases hmsg

/-- Witness for C8: the one-gate satisfiable prover circuit compiles. -/
theorem circuit_compile_prover_self_check_witness :
    ACircuit.collectWitness Ex.c8CommitCalc Ex.c8Circ =
      some ([2], [3], [], []) ∧
    (∀ con ∈ Ex.c8Circ.constraints,
      ACircuit.constraintEval [2] [3] [] con = con.c) ∧
    (∃ out, ACircuit.compileM Ex.c8CommitCalc Ex.c8Circ = .ok out) :=
  ⟨by decide, by decide,
    (circuit_compile_prover_self_check Ex.c8CommitCalc Ex.c8Circ [2] [3] []
        [] (by decide) (by decide) (by decide) (by decide) (by decide)
        (by decide) (by decide) (by decide) (by decide)).1.mpr (by decide)⟩

/-- Witness for the amended C5 at the initial state. -/
theorem keygen_generate_key_amended_witness :
    KeyGenM.mapGet 0
        (⟨[(0, 0)], [], [(0, 5)], 1⟩ : KeyGenM.KGState).activeShare = none ∧
    KeyGenM.mapGet 0
        (⟨[(0, 0)], [], [(0, 5)], 1⟩ : KeyGenM.KGState).activeCommit =
      some KeyGenM.kgInit.fresh ∧
    (⟨[(0, 0)], [], [(0, 5)], 1⟩ : KeyGenM.KGState).paramsWrites =
      (if KeyGenM.mapGet 0 KeyGenM.kgInit.activeCommit = none ∧
          KeyGenM.mapGet 0 KeyGenM.kgInit.activeShare = none then
        (0, 5) :: KeyGenM.kgInit.paramsWrites
      else KeyGenM.kgInit.paramsWrites) :=
  keygen_generate_key_amended KeyGenM.kgInit 0 5 _ (by decide) (by decide)

theorem list_get?_append_some {α : Type} {l t : List α} {i : Nat} {x : α}
    (h : l.get? i = some x) : (l ++ t).get? i = some x := by
  have hlt : i < l.length := by
    by_contra hc
    push_neg at hc
    rw [List.get?_eq_none.mpr hc] at h
    cases h
  rw [List.get?_append hlt]
  exact h

theorem acx_findCached_mem (a b : Nat) :
    ∀ (l : List (Nat × ACircuit.ProductM)) (k : Nat),
      ACircuit.findCachedProduct a b l = some k →
      ∃ pr, (k, pr) ∈ l ∧ pr.left = a ∧ pr.right = b
  | [], k, h => by cases h
  | (j, pr) :: rest, k, h => by
    rw [ACircuit.findCachedProduct] at h
    split_ifs at h with hc
    · obtain rfl := Option.some.inj h
      exact ⟨pr, List.mem_cons_self _ _, hc.1, hc.2⟩
    · obtain ⟨pr2, hm, h1, h2⟩ := acx_findCached_mem a b rest k h
      exact ⟨pr2, List.mem_cons_of_mem _ hm, h1, h2⟩

theorem acx_constrainEquality_facts {F G : Type} [Field F] [DecidableEq F]
    [DecidableEq G] (c : ACircuit.CircuitM F G) (x y : ACircuit.ProductRef) :
    (c.constrainEquality x y).products = c.products ∧
    (c.constrainEquality x y).vars = c.vars ∧
    ∃ t, (c.constrainEquality x y).constraints = c.constraints ++ t := by
  rw [ACircuit.CircuitM.constrainEquality]
  split_ifs
  · exact ⟨rfl, rfl, [], by simp⟩
  · exact ⟨rfl, rfl, [_], rfl⟩

theorem acx_ce2_constraints {F G : Type} [Field F] [DecidableEq F]
    [DecidableEq G] (c0 : ACircuit.CircuitM F G)
    (x1 y1 x2 y2 : ACircuit.ProductRef) :
    ∃ t, ((c0.constrainEquality x1 y1).constrainEquality x2 y2).constraints =
      c0.constraints ++ t := by
  obtain ⟨t1, h1⟩ := (acx_constrainEquality_facts c0 x1 y1).2.2
  obtain ⟨t2, h2⟩ :=
    (acx_constrainEquality_facts (c0.constrainEquality x1 y1) x2 y2).2.2
  exact ⟨t1 ++ t2, by rw [h2, h1, List.append_assoc]⟩

theorem acx_product_spec {F G : Type} [Field F] [DecidableEq F] [DecidableEq G]
    {c : ACircuit.CircuitM F G} {a b : Nat}
    {r : (ACircuit.ProductRef × ACircuit.ProductRef × ACircuit.ProductRef) ×
      Nat × ACircuit.CircuitM F G}
    (h : c.product a b = some r) :
    ∃ pid w,
      r.2.2.products.get? pid = some ⟨a, b, w⟩ ∧
      r.1 = (ACircuit.ProductRef.left pid a, ACircuit.ProductRef.right pid b,
        ACircuit.ProductRef.output pid w) ∧
      (∃ t, r.2.2.products = c.products ++ t) ∧
      (∃ t, r.2.2.constraints = c.constraints ++ t) := by
  rw [ACircuit.CircuitM.product] at h
  rcases hfind : ACircuit.findCachedProduct a b c.products.enum with _ | id
  · rw [hfind] at h
    obtain ⟨exA, hA, h⟩ := Option.bind_eq_some.mp h
    obtain ⟨exB, hB, h⟩ := Option.bind_eq_some.mp h
    clear hA hB
    suffices hs : r.2.2.products = c.products ++ [⟨a, b, c.vars.length⟩] ∧
        (∃ t, r.2.2.constraints = c.constraints ++ t) ∧
        r.1 = (ACircuit.ProductRef.left c.products.length a,
          ACircuit.ProductRef.right c.products.length b,
          ACircuit.ProductRef.output c.products.length c.vars.length) by
      obtain ⟨hp, hc, hr⟩ := hs
      refine ⟨c.products.length, c.vars.length, ?_, hr, ⟨_, hp⟩, hc⟩
      rw [hp]
      exact List.get?_concat_length _ _
    rcases exA with _ | ex1 <;> rcases exB with _ | ex2
    · simp only [] at h
      split at h
      · split at h
        · obtain ⟨y, hy, h⟩ := Option.bind_eq_some.mp h
          obtain rfl := Option.some.inj hy
          obtain rfl := Option.some.inj h
          exact ⟨rfl, ⟨[], by simp⟩, rfl⟩
        · simp at h
      · obtain ⟨y, hy, h⟩ := Option.bind_eq_some.mp h
        obtain rfl := Option.some.inj hy
        obtain rfl := Option.some.inj h
        exact ⟨rfl, ⟨[], by simp⟩, rfl⟩
    · simp only [] at h
      split at h
      · split at h
        · obtain ⟨y, hy, h⟩ := Option.bind_eq_some.mp h
          obtain rfl := Option.some.inj hy
          obtain rfl := Option.some.inj h
          exact ⟨(acx_constrainEquality_facts _ _ ex2).1,
            (acx_constrainEquality_facts _ _ ex2).2.2, rfl⟩
        · simp at h
      · obtain ⟨y, hy, h⟩ := Option.bind_eq_some.mp h
        obtain rfl := Option.some.inj hy
        obtain rfl := Option.some.inj h
        exact ⟨(acx_constrainEquality_facts _ _ ex2).1,
          (acx_constrainEquality_facts _ _ ex2).2.2, rfl⟩
    · simp only [] at h
      split at h
      · split at h
        · obtain ⟨y, hy, h⟩ := Option.bind_eq_some.mp h
          obtain rfl := Option.some.inj hy
          obtain rfl := Option.some.inj h
          exact ⟨(acx_constrainEquality_facts _ _ ex1).1,
            (acx_constrainEquality_facts _ _ ex1).2.2, rfl⟩
        · simp at h
      · obtain ⟨y, hy, h⟩ := Option.bind_eq_some.mp h
        obtain rfl := Option.some.inj hy
        obtain rfl := Option.some.inj h
        exact ⟨(acx_constrainEquality_facts _ _ ex1).1,
          (acx_constrainEquality_facts _ _ ex1).2.2, rfl⟩
    · simp only [] at h
      split at h
      · split at h
        · obtain ⟨y, hy, h⟩ := Option.bind_eq_some.mp h
          obtain rfl := Option.some.inj hy
          obtain rfl := Option.some.inj h
          exact ⟨((acx_constrainEquality_facts _ _ ex2).1).trans
            ((acx_constrainEquality_facts _ _ ex1).1),
            acx_ce2_constraints _ _ ex1 _ ex2, rfl⟩
        · simp at h
      · obtain ⟨y, hy, h⟩ := Option.bind_eq_some.mp h
        obtain rfl := Option.some.inj hy
        obtain rfl := Option.some.inj h
        exact ⟨((acx_constrainEquality_facts _ _ ex2).1).trans
          ((acx_constrainEquality_facts _ _ ex1).1),
          acx_ce2_constraints _ _ ex1 _ ex2, rfl⟩
  · rw [hfind] at h
    obtain ⟨pr, hmem, hl, hr⟩ := acx_findCached_mem a b _ id hfind
    have hget : c.products.get? id = some pr := by
      rw [List.get?_eq_getElem?]
      exact List.mk_mem_enum_iff_getElem?.mp hmem
    have hgetD : c.products.getD id default = pr := list_getD_of_get? _ _ _ _ hget
    obtain rfl := Option.some.inj h
    refine ⟨id, pr.outVar, ?_, ?_, ⟨[], by simp⟩, ⟨[], by simp⟩⟩
    · rw [hgetD, hget]
      obtain ⟨pl, prr, po⟩ := pr
      simp only at hl hr
      rw [hl, hr]
    · rw [hgetD]

theorem acx_bitNew_spec {F G : Type} [Field F] [DecidableEq F] [DecidableEq G]
    {c0 : ACircuit.CircuitM F G} {l : Nat} {bit : ACircuit.BitM F}
    {c1 : ACircuit.CircuitM F G}
    (h : ACircuit.bitNewFromVar c0 l = some (bit, c1)) :
    bit.var = l ∧ bit.var < bit.minusOne ∧
    ∃ p0 w0,
      c1.products.get? p0 = some ⟨bit.var, bit.minusOne, w0⟩ ∧
      (⟨"constant_equality", [], [], [(p0, 1)], [], 0⟩ :
        ACircuit.ConstraintM F) ∈ c1.constraints ∧
      (⟨"l_minus_one", [(p0, 1)], [(p0, -1)], [], [], 1⟩ :
        ACircuit.ConstraintM F) ∈ c1.constraints := by
  rw [ACircuit.bitNewFromVar] at h
  obtain ⟨bv, hbv, h⟩ := Option.bind_eq_some.mp h
  have hl : l < c0.vars.length := by
    rw [ACircuit.CircuitM.uncheckedValue] at hbv
    obtain ⟨vr, hvr, _⟩ := Option.bind_eq_some.mp hbv
    rw [ACircuit.CircuitM.varAt] at hvr
    exact (List.get?_eq_some.mp hvr).choose
  obtain ⟨rc, hrc, h⟩ := Option.bind_eq_some.mp h
  obtain ⟨r2, cA⟩ := rc
  rw [ACircuit.CircuitM.addSecretInput] at hrc
  split_ifs at hrc with hpr
  · obtain heq := Option.some.inj hrc
    obtain ⟨rfl, rfl⟩ := (Prod.mk.injEq _ _ _ _).mp heq
    obtain ⟨pout, hprod, h⟩ := Option.bind_eq_some.mp h
    obtain ⟨refs, out, cB⟩ := pout
    obtain ⟨p0, w0, hget, hrefs, ⟨tp, hps⟩, ⟨tc, hcs⟩⟩ := acx_product_spec hprod
    obtain rfl := hrefs
    obtain ⟨cC, hec, h⟩ := Option.bind_eq_some.mp h
    rw [ACircuit.CircuitM.equalsConstant, if_pos rfl] at hec
    obtain rfl := Option.some.inj hec
    obtain ⟨con, hcon, h⟩ := Option.bind_eq_some.mp h
    rw [ACircuit.ConstraintM.rhsOffset] at hcon
    rw [if_pos (show
      ((((ACircuit.ConstraintM.new "l_minus_one").weight
        (ACircuit.ProductRef.left p0 l) 1).weight
        (ACircuit.ProductRef.right p0 c0.vars.length) (-1)).c : F) = 0
      from rfl)] at hcon
    obtain rfl := Option.some.inj hcon
    obtain heq2 := Option.some.inj h
    obtain ⟨rfl, rfl⟩ := (Prod.mk.injEq _ _ _ _).mp heq2
    refine ⟨rfl, hl, p0, w0, hget, ?_, ?_⟩
    · simp [ACircuit.CircuitM.constrain, ACircuit.ConstraintM.weight,
        ACircuit.ConstraintM.new, ACircuit.addWeight, ACircuit.updFirst]
    · simp [ACircuit.CircuitM.constrain, ACircuit.ConstraintM.weight,
        ACircuit.ConstraintM.new, ACircuit.addWeight, ACircuit.updFirst]

theorem exists_append_trans {α : Type} {x y z : List α}
    (h1 : ∃ t, y = x ++ t) (h2 : ∃ t, z = y ++ t) : ∃ t, z = x ++ t := by
  obtain ⟨t1, rfl⟩ := h1
  obtain ⟨t2, rfl⟩ := h2
  exact ⟨t1 ++ t2, by rw [List.append_assoc]⟩

theorem list_get?_of_exists_append {α : Type} {x z : List α} {i : Nat}
    {x0 : α} (h1 : ∃ t, z = x ++ t) (h2 : x.get? i = some x0) :
    z.get? i = some x0 := by
  obtain ⟨t, rfl⟩ := h1
  exact list_get?_append_some h2

theorem acx_bitSelect_spec {F G : Type} [Field F] [DecidableEq F]
    [DecidableEq G] {bit : ACircuit.BitM F} {c1 : ACircuit.CircuitM F G}
    {fx fy : Nat} {r : Nat × ACircuit.CircuitM F G}
    (hne : bit.var ≠ bit.minusOne)
    (h : ACircuit.bitSelect bit c1 fx fy = some r) :
    ∃ p1 w1 p2 w2 p3 w3,
      r.2.products.get? p1 = some ⟨r.1, r.1, w1⟩ ∧
      r.2.products.get? p2 = some ⟨bit.var, fy, w2⟩ ∧
      r.2.products.get? p3 = some ⟨bit.minusOne, fx, w3⟩ ∧
      (⟨"chosen", [(p1, -1)], [], [(p2, 1), (p3, -1)], [], 0⟩ :
        ACircuit.ConstraintM F) ∈ r.2.constraints ∧
      (∃ t, r.2.products = c1.products ++ t) ∧
      (∃ t, r.2.constraints = c1.constraints ++ t) := by
  obtain ⟨rn, rc⟩ := r
  rw [ACircuit.bitSelect] at h
  obtain ⟨fv, hfv, h⟩ := Option.bind_eq_some.mp h
  obtain ⟨tv, htv, h⟩ := Option.bind_eq_some.mp h
  simp only [] at h
  split at h
  on_goal 1 => split at h
  on_goal 2 => simp at h
  all_goals (
    obtain ⟨y, hy, h⟩ := Option.bind_eq_some.mp h
    obtain rfl := Option.some.inj hy
    obtain ⟨cp, hadd, h⟩ := Option.bind_eq_some.mp h
    obtain ⟨chosen0, cA⟩ := cp
    rw [ACircuit.CircuitM.addSecretInput] at hadd
    obtain ⟨hpr, heqs⟩ := Option.ite_none_right_eq_some.mp hadd
    obtain heq := Option.some.inj heqs
    obtain ⟨hchosen, hcA⟩ := (Prod.mk.injEq _ _ _ _).mp heq
    obtain rfl := hchosen
    obtain ⟨po1, hprod1, h⟩ := Option.bind_eq_some.mp h
    obtain ⟨refs1, o1, cB⟩ := po1
    obtain ⟨p1, w1, hget1, hrefs1, hps1, hcs1⟩ := acx_product_spec hprod1
    obtain rfl := hrefs1
    obtain ⟨po2, hprod2, h⟩ := Option.bind_eq_some.mp h
    obtain ⟨refs2, o2, cC⟩ := po2
    obtain ⟨p2, w2, hget2, hrefs2, hps2, hcs2⟩ := acx_product_spec hprod2
    obtain rfl := hrefs2
    obtain ⟨po3, hprod3, h⟩ := Option.bind_eq_some.mp h
    obtain ⟨refs3, o3, cD⟩ := po3
    obtain ⟨p3, w3, hget3, hrefs3, hps3, hcs3⟩ := acx_product_spec hprod3
    obtain rfl := hrefs3
    obtain heq2 := Option.some.inj h
    obtain ⟨rfl, rfl⟩ := (Prod.mk.injEq _ _ _ _).mp heq2
    have hpsA : ∃ t, cA.products = c1.products ++ t :=
      ⟨[], by rw [← hcA]; simp⟩
    have hpsD : ∃ t, cD.products = c1.products ++ t :=
      exists_append_trans (exists_append_trans (exists_append_trans hpsA
        hps1) hps2) hps3
    have hl1 : cD.products.get? p1 =
        some ⟨c1.vars.length, c1.vars.length, w1⟩ :=
      list_get?_of_exists_append (exists_append_trans hps2 hps3) hget1
    have hl2 : cD.products.get? p2 = some ⟨bit.var, fy, w2⟩ :=
      list_get?_of_exists_append hps3 hget2
    have hl3 : cD.products.get? p3 = some ⟨bit.minusOne, fx, w3⟩ := hget3
    have hne23 : p2 ≠ p3 := by
      intro hcontra
      rw [hcontra, hl3] at hl2
      obtain ⟨h1, _, _⟩ :=
        (ACircuit.ProductM.mk.injEq _ _ _ _ _ _).mp (Option.some.inj hl2)
      exact hne h1.symm
    refine ⟨p1, w1, p2, w2, p3, w3, hl1, hl2, hl3, ?_, hpsD, ?_⟩
    · simp [ACircuit.CircuitM.constrain, ACircuit.ConstraintM.new,
        ACircuit.ConstraintM.weight, ACircuit.addWeight, ACircuit.updFirst,
        hne23]
    · have hcsA : ∃ t, cA.constraints = c1.constraints ++ t :=
        ⟨[], by rw [← hcA]; simp⟩
      exact exists_append_trans (exists_append_trans (exists_append_trans
        (exists_append_trans hcsA hcs1) hcs2) hcs3) ⟨[_], rfl⟩)

/-- **C9** (amended): for every successful `Bit::new_from_var` on variable
`l` followed by `Bit::select` over variables `fx` (`if_false`) and `fy`
(`if_true`), any assignment satisfying the resulting constraint system has
the bit equal to 0 or 1, the chosen variable equals `fx` whenever the bit
is 0 and `fy` whenever the bit is 1 — and the claim's two "exactly when"
biconditionals hold under the additional hypothesis that the values at
`fx` and `fy` differ (without it the counterexample above refutes them). -/
theorem bit_gadget_amended {F G : Type} [Field F] [DecidableEq F]
    [DecidableEq G] (c0 : ACircuit.CircuitM F G) (l fx fy : Nat)
    (bit : ACircuit.BitM F) (c1 : ACircuit.CircuitM F G) (chosen : Nat)
    (c2 : ACircuit.CircuitM F G) (vals vvals : List F)
    (h1 : ACircuit.bitNewFromVar c0 l = some (bit, c1))
    (h2 : ACircuit.bitSelect bit c1 fx fy = some (chosen, c2))
    (hsat : ACircuit.satisfies c2 vals vvals) :
    (vals.getD l 0 = 0 ∨ vals.getD l 0 = 1) ∧
    (vals.getD l 0 = 0 → vals.getD chosen 0 = vals.getD fx 0) ∧
    (vals.getD l 0 = 1 → vals.getD chosen 0 = vals.getD fy 0) ∧
    (vals.getD fx 0 ≠ vals.getD fy 0 →
      ((vals.getD chosen 0 = vals.getD fx 0 ↔ vals.getD l 0 = 0) ∧
       (vals.getD chosen 0 = vals.getD fy 0 ↔ vals.getD l 0 = 1))) := by
  obtain ⟨hvar, hlt, p0, w0, hget0, hmemA, hmemB⟩ := acx_bitNew_spec h1
  obtain ⟨p1, w1, p2, w2, p3, w3, hg1, hg2, hg3, hmemC, hpapp, hcapp⟩ :=
    acx_bitSelect_spec (Nat.ne_of_lt hlt) h2
  subst hvar
  have hget0' : c2.products.get? p0 = some ⟨bit.var, bit.minusOne, w0⟩ :=
    list_get?_of_exists_append hpapp hget0
  have hmemA' : (⟨"constant_equality", [], [], [(p0, 1)], [], 0⟩ :
      ACircuit.ConstraintM F) ∈ c2.constraints := by
    obtain ⟨t, ht⟩ := hcapp
    rw [ht]
    exact List.mem_append_left _ hmemA
  have hmemB' : (⟨"l_minus_one", [(p0, 1)], [(p0, -1)], [], [], 1⟩ :
      ACircuit.ConstraintM F) ∈ c2.constraints := by
    obtain ⟨t, ht⟩ := hcapp
    rw [ht]
    exact List.mem_append_left _ hmemB
  have hD0 : c2.products.getD p0 default = ⟨bit.var, bit.minusOne, w0⟩ :=
    list_getD_of_get? _ _ _ _ hget0'
  have hD1 : c2.products.getD p1 default = ⟨chosen, chosen, w1⟩ :=
    list_getD_of_get? _ _ _ _ hg1
  have hD2 : c2.products.getD p2 default = ⟨bit.var, fy, w2⟩ :=
    list_getD_of_get? _ _ _ _ hg2
  have hD3 : c2.products.getD p3 default = ⟨bit.minusOne, fx, w3⟩ :=
    list_getD_of_get? _ _ _ _ hg3
  have eqA0 := hsat _ hmemA'
  have eqB0 := hsat _ hmemB'
  have eqC0 := hsat _ hmemC
  simp only [ACircuit.conHolds, ACircuit.rowSum, List.map_cons, List.map_nil,
    List.sum_cons, List.sum_nil, hD0, hD1, hD2, hD3] at eqA0 eqB0 eqC0
  have hm : vals.getD bit.minusOne 0 = vals.getD bit.var 0 - 1 := by
    linear_combination -eqB0
  have hq : vals.getD bit.var 0 * (vals.getD bit.var 0 - 1) = 0 := by
    rw [← hm]
    linear_combination eqA0
  have hc : vals.getD chosen 0 = vals.getD bit.var 0 * vals.getD fy 0 -
      (vals.getD bit.var 0 - 1) * vals.getD fx 0 := by
    rw [← hm]
    linear_combination -eqC0
  rcases mul_eq_zero.mp hq with hb0 | hb1
  · have hcx : vals.getD chosen 0 = vals.getD fx 0 := by
      rw [hb0] at hc
      linear_combination hc
    have hb01 : vals.getD bit.var 0 = 1 → False := fun hbx => by
      rw [hb0] at hbx
      exact zero_ne_one hbx
    refine ⟨Or.inl hb0, fun _ => hcx, fun hbx => absurd hbx hb01,
      fun hxy => ⟨⟨fun _ => hb0, fun _ => hcx⟩,
        ⟨fun hcy => absurd (hcx.symm.trans hcy) hxy,
         fun hbx => absurd hbx hb01⟩⟩⟩
  · have hb1' : vals.getD bit.var 0 = 1 := by linear_combination hb1
    have hcy : vals.getD chosen 0 = vals.getD fy 0 := by
      rw [hb1'] at hc
      linear_combination hc
    have hb10 : vals.getD bit.var 0 = 0 → False := fun hbx => by
      rw [hb1'] at hbx
      exact one_ne_zero hbx
    refine ⟨Or.inr hb1', fun hbx => absurd hbx hb10, fun _ => hcy,
      fun hxy => ⟨⟨fun hcx0 => absurd (hcy.symm.trans hcx0).symm hxy,
        fun hbx => absurd hbx hb10⟩, ⟨fun _ => hb1', fun _ => hcy⟩⟩⟩

/-- **C9** (counterexample): `Bit::new_from_var` over variable 2 of
`c9Start` followed by `Bit::select` with `if_false = 0`, `if_true = 1`
both succeed, yet the variable assignment `c9Vals` satisfies every
emitted constraint with the bit variable equal to 1 while the chosen
variable equals the `if_false` value — the values at indices 0 and 1
coincide, so "chosen equals x exactly when b = 0" fails: the
equivalence's right-to-left direction is fine but the claimed
"exactly when" biconditional is violated. -/
theorem bit_select_iff_counterexample :
    Ex.c9Run1.isSome = true ∧ Ex.c9Run2.isSome = true ∧
    ACircuit.satisfies Ex.c9C2 Ex.c9Vals [] ∧
    Ex.c9Vals.getD Ex.c9Bit.var 0 = 1 ∧
    Ex.c9Vals.getD Ex.c9Chosen 0 = Ex.c9Vals.getD 0 0 ∧
    ¬((Ex.c9Vals.getD Ex.c9Chosen 0 = Ex.c9Vals.getD 0 0) ↔
      Ex.c9Vals.getD Ex.c9Bit.var 0 = 0) := by
  decide

/-- Witness for the amended C9: the satisfying assignment `c9ValsW` over
the concrete circuit run (bit value 0, distinct `if_false`/`if_true`
values), with every hypothesis discharged at the concrete input. -/
theorem bit_gadget_amended_witness :
    (Ex.c9ValsW.getD 2 0 = 0 ∨ Ex.c9ValsW.getD 2 0 = 1) ∧
    (Ex.c9ValsW.getD 2 0 = 0 →
      Ex.c9ValsW.getD Ex.c9Chosen 0 = Ex.c9ValsW.getD 0 0) ∧
    (Ex.c9ValsW.getD 2 0 = 1 →
      Ex.c9ValsW.getD Ex.c9Chosen 0 = Ex.c9ValsW.getD 1 0) ∧
    (Ex.c9ValsW.getD 0 0 ≠ Ex.c9ValsW.getD 1 0 →
      ((Ex.c9ValsW.getD Ex.c9Chosen 0 = Ex.c9ValsW.getD 0 0 ↔
        Ex.c9ValsW.getD 2 0 = 0) ∧
       (Ex.c9ValsW.getD Ex.c9Chosen 0 = Ex.c9ValsW.getD 1 0 ↔
        Ex.c9ValsW.getD 2 0 = 1))) :=
  bit_gadget_amended Ex.c9Start 2 0 1 Ex.c9Bit Ex.c9C1 Ex.c9Chosen Ex.c9C2
    Ex.c9ValsW [] (by rfl) (by rfl) (by decide)

section C6
open BP25519

variable {p : Nat}

theorem nt_cast_val [NeZero p] (a : ZMod p) : ((a.val : Nat) : ZMod p) = a :=
  ZMod.natCast_rightInverse a

theorem nt_testBit_low (v : Nat) (hv : v < 2 ^ 263) : v.testBit 263 = false :=
  Nat.testBit_lt_two_pow hv

theorem nt_testBit_high (v : Nat) (hv : v < 2 ^ 263) :
    (v + 2 ^ 263).testBit 263 = true := by
  rw [Nat.testBit_to_div_mod]
  rw [Nat.add_div_right _ (by positivity), Nat.div_eq_of_lt hv]
  decide

theorem bp_invertOrZero_one [Fact (Nat.Prime p)] :
    invertOrZero p 1 = 1 := by
  rw [invertOrZero, if_neg one_ne_zero, one_pow]

theorem bp_isOdd_neg [Fact (Nat.Prime p)] (hp2 : 2 < p) (a : ZMod p)
    (ha : a ≠ 0) : isOddF (-a) = !isOddF a := by
  have hodd : p % 2 = 1 :=
    Nat.odd_iff.mp ((Fact.out : p.Prime).odd_of_ne_two (by omega))
  have hvpos : 0 < a.val :=
    Nat.pos_of_ne_zero (fun h0 => ha ((ZMod.val_eq_zero _).mp h0))
  have hvlt : a.val < p := ZMod.val_lt a
  have hneg : (-a).val = p - a.val := by
    rw [ZMod.neg_val, if_neg ha]
  rw [isOddF, isOddF, hneg]
  by_cases hb : a.val % 2 = 1
  · have h1 : (p - a.val) % 2 = 0 := by omega
    simp [h1, hb]
  · have h1 : (p - a.val) % 2 = 1 := by omega
    have h0 : a.val % 2 = 0 := by omega
    simp [h1, h0]

theorem bp_add_qx0 (P Q : Point p) (hq : Q.x = 0) :
    P.add Q = if P.x = 0 then Point.identity p else P := by
  have hinner : P.addInner Q = P := by
    rw [Point.addInner]
    split
    next => rfl
    next hcond => exact absurd hq hcond
  rw [Point.add]
  rw [hinner]

theorem bp_double_x0 [Fact (Nat.Prime p)] (P : Point p) (hx : P.x = 0)
    (hz : P.z = 0) : P.double.x = 0 ∧ P.double.z = 0 := by
  rw [Point.double]
  constructor
  · simp only [hx, fdouble]
    ring
  · simp only [hz, fdouble]
    ring

theorem bp_tableFrom_id (P : Point p) (hx : P.x = 0) :
    ∀ n (acc : Point p), acc.x = 0 →
      ∀ T ∈ tableFrom P acc n, T = Point.identity p
  | 0, acc, hacc, T, hT => by cases hT
  | n + 1, acc, hacc, T, hT => by
    rw [tableFrom] at hT
    have hnxt : acc.add P = Point.identity p := by
      rw [bp_add_qx0 acc P hx, if_pos hacc]
    rw [hnxt] at hT
    rcases List.mem_cons.mp hT with h1 | h2
    · exact h1
    · exact bp_tableFrom_id P hx n _ rfl T h2

theorem bp_table_x0 (P : Point p) (hx : P.x = 0) (hz : P.z = 0) :
    ∀ T ∈ mulTable P, T.x = 0 ∧ T.z = 0 := by
  intro T hT
  rw [mulTable] at hT
  rcases List.mem_cons.mp hT with h1 | h2
  · rw [h1]
    exact ⟨rfl, rfl⟩
  rcases List.mem_cons.mp h2 with h3 | h4
  · rw [h3]
    exact ⟨hx, hz⟩
  · rw [bp_tableFrom_id P hx 14 P hx T h4]
    exact ⟨rfl, rfl⟩

theorem bp_mulLoop_x0 [Fact (Nat.Prime p)] (table : List (Point p))
    (htab : ∀ T ∈ table, T.x = 0 ∧ T.z = 0) :
    ∀ (l : List Bool) (i bits : Nat) (res : Point p), res.x = 0 → res.z = 0 →
      (mulLoop table l i bits res).x = 0 ∧ (mulLoop table l i bits res).z = 0
  | [], i, bits, res, hx, hz => ⟨hx, hz⟩
  | bit :: rest, i, bits, res, hx, hz => by
    rw [mulLoop]
    have hT : (table.getD (2 * bits + (if bit then 1 else 0))
        (Point.identity p)).x = 0 := by
      rcases Nat.lt_or_ge (2 * bits + (if bit then 1 else 0)) table.length
        with hlen | hlen
      · rw [List.getD_eq_getElem _ _ hlen]
        exact (htab _ (List.getElem_mem hlen)).1
      · rw [List.getD_eq_default _ _ hlen]
        rfl
    split
    · set res1 := if i ≠ 3 then res.double.double.double.double else res
        with hres1
      have hres1f : res1.x = 0 ∧ res1.z = 0 := by
        rw [hres1]
        split
        · have d1 := bp_double_x0 res hx hz
          have d2 := bp_double_x0 _ d1.1 d1.2
          have d3 := bp_double_x0 _ d2.1 d2.2
          exact bp_double_x0 _ d3.1 d3.2
        · exact ⟨hx, hz⟩
      have hadd : (res1.add (table.getD (2 * bits + (if bit then 1 else 0))
          (Point.identity p))).x = 0 ∧
          (res1.add (table.getD (2 * bits + (if bit then 1 else 0))
          (Point.identity p))).z = 0 := by
        rw [bp_add_qx0 _ _ hT, if_pos hres1f.1]
        exact ⟨rfl, rfl⟩
      exact bp_mulLoop_x0 table htab rest (i + 1) 0 _ hadd.1 hadd.2
    · exact bp_mulLoop_x0 table htab rest (i + 1) _ res hx hz

theorem bp_mulNat_x0 [Fact (Nat.Prime p)] (P : Point p) (hx : P.x = 0)
    (hz : P.z = 0) (s : Nat) :
    (P.mulNat s).x = 0 ∧ (P.mulNat s).z = 0 := by
  rw [Point.mulNat]
  exact bp_mulLoop_x0 (mulTable P) (bp_table_x0 P hx hz) _ 0 0 _ rfl rfl

theorem bp_eqb_id_of_z0 (P : Point p) (hz : P.z = 0) :
    pointEqb P (Point.identity p) = true := by
  rw [pointEqb, Point.identity]
  simp [hz]

theorem bp_isOdd_one [Fact (Nat.Prime p)] (hp2 : 2 < p) :
    isOddF (1 : ZMod p) = true := by
  haveI : Fact (1 < p) := ⟨by omega⟩
  rw [isOddF, ZMod.val_one]
  decide

theorem bp_isOdd_zero [Fact (Nat.Prime p)] : isOddF (0 : ZMod p) = false := by
  rw [isOddF, ZMod.val_zero]
  decide

theorem bp_fromBytes_zero [Fact (Nat.Prime p)] (hp2 : 2 < p) (order : Nat) :
    fromBytes p order 0 = some ⟨0, -1, 0⟩ := by
  rw [fromBytes]
  simp only [Nat.zero_testBit, Nat.zero_mod, Nat.cast_zero, mul_zero,
    zero_mul, zero_add, one_pow, mul_one, bp_isOdd_one hp2,
    bp_eqb_id_of_z0 _ (bp_mulNat_x0 (⟨0, -1, 0⟩ : Point p) rfl rfl order).2,
    show (0 : Nat) < p from by omega]
  simp only [if_true, Bool.true_eq_false, Bool.false_eq_true, if_false,
    true_and, false_or]
  rw [bp_eqb_id_of_z0 _ (bp_mulNat_x0 (⟨0, -1, 0⟩ : Point p) rfl rfl order).2]
  simp

theorem bp_toBytes_z0 [Fact (Nat.Prime p)] (P : Point p) (hz : P.z = 0) :
    toBytes P = 0 := by
  rw [toBytes]
  simp [hz, invertOrZero, bp_isOdd_zero]

theorem bp_toBytes_z1 [Fact (Nat.Prime p)] (x y : ZMod p) :
    toBytes (⟨x, y, 1⟩ : Point p) =
      x.val + (if isOddF y then 2 ^ 263 else 0) := by
  rw [toBytes]
  simp [bp_invertOrZero_one]

theorem nt_encode_testBit (v : Nat) (hv : v < 2 ^ 263) (b : Bool) :
    (v + if b then 2 ^ 263 else 0).testBit 263 = b := by
  cases b
  · simp [nt_testBit_low v hv]
  · simp [nt_testBit_high v hv]

theorem nt_encode_mod (v : Nat) (hv : v < 2 ^ 263) (b : Bool) :
    (v + if b then 2 ^ 263 else 0) % 2 ^ 263 = v := by
  cases b
  · simp [Nat.mod_eq_of_lt hv]
  · simp [Nat.add_mod_right, Nat.mod_eq_of_lt hv]

theorem bp_roundtrip [Fact (Nat.Prime p)] (hp2 : 2 < p) (hp : p < 2 ^ 263)
    (order : Nat) (e : Nat) (P : Point p)
    (h : fromBytes p order e = some P) :
    fromBytes p order (toBytes P) = some P := by
  rw [fromBytes] at h
  split at h
  case isFalse => simp at h
  rename_i hlt
  simp only [] at h
  set x : ZMod p := ((e % 2 ^ 263 : Nat) : ZMod p) with hxdef
  set yc : ZMod p := (x * x * x + 1) ^ ((p + 1) / 4) with hycdef
  split at h
  case isFalse => simp at h
  rename_i hsq
  split at h
  · rename_i hc
    split at h
    · rename_i hx0
      split at h
      · simp at h
      · rename_i hrej
        obtain rfl := Option.some.inj h
        obtain ⟨h1, h2⟩ := not_or.mp hrej
        have hyc1 : yc = 1 := by
          rw [hycdef, hx0]
          simp
        have htb : e.testBit 263 = false := by
          rcases Bool.eq_false_or_eq_true (e.testBit 263) with ht | hf
          · exact absurd ⟨hx0, ht⟩ h1
          · exact hf
        rw [hyc1, bp_isOdd_one hp2, htb] at hc
        exact Bool.noConfusion hc
    · rename_i hx0
      split at h
      · simp at h
      · rename_i hrej
        obtain rfl := Option.some.inj h
        obtain ⟨h1, h2⟩ := not_or.mp hrej
        rw [bp_toBytes_z1, fromBytes]
        have hvlt := lt_trans (ZMod.val_lt x) hp
        simp only [nt_encode_testBit x.val hvlt, nt_encode_mod x.val hvlt,
          nt_cast_val]
        rw [← hycdef]
        rw [if_pos (ZMod.val_lt x), if_pos hsq]
        rw [if_true, if_neg hx0]
        rw [if_neg (show ¬(x = 0 ∧ isOddF yc = true ∨
            pointEqb ((⟨x, yc, 1⟩ : Point p).mulNat order)
              (Point.identity p) = false) from fun hbad => by
          rcases hbad with ⟨hx0c, _⟩ | htor
          · exact hx0 hx0c
          · exact h2 htor)]
  · rename_i hc
    split at h
    · rename_i hx0
      split at h
      · simp at h
      · rename_i hrej
        obtain rfl := Option.some.inj h
        have hyc1 : yc = 1 := by
          rw [hycdef, hx0]
          simp
        rw [hx0, hyc1]
        rw [bp_toBytes_z0 _ rfl]
        exact bp_fromBytes_zero hp2 order
    · rename_i hx0
      split at h
      · simp at h
      · rename_i hrej
        obtain rfl := Option.some.inj h
        obtain ⟨h1, h2⟩ := not_or.mp hrej
        rw [bp_toBytes_z1, fromBytes]
        have hvlt := lt_trans (ZMod.val_lt x) hp
        simp only [nt_encode_testBit x.val hvlt, nt_encode_mod x.val hvlt,
          nt_cast_val]
        rw [← hycdef]
        rw [if_pos (ZMod.val_lt x), if_pos hsq]
        by_cases hyc0 : yc = 0
        · rw [hyc0, neg_zero] at h2 ⊢
          rw [if_pos (show isOddF (0 : ZMod p) = isOddF (0 : ZMod p)
            from rfl)]
          rw [if_neg hx0]
          rw [if_neg (show ¬(x = 0 ∧ isOddF (0 : ZMod p) = true ∨
              pointEqb ((⟨x, 0, 1⟩ : Point p).mulNat order)
                (Point.identity p) = false) from fun hbad => by
            rcases hbad with ⟨hx0c, _⟩ | htor
            · exact hx0 hx0c
            · exact h2 htor)]
        · rw [bp_isOdd_neg hp2 yc hyc0]
          rw [if_neg (show ¬(isOddF yc = !isOddF yc) from by simp)]
          rw [if_neg hx0]
          rw [if_neg (show ¬(x = 0 ∧ (!isOddF yc) = true ∨
              pointEqb ((⟨x, -yc, 1⟩ : Point p).mulNat order)
                (Point.identity p) = false) from fun hbad => by
            rcases hbad with ⟨hx0c, _⟩ | htor
            · exact hx0 hx0c
            · exact h2 htor)]


/-- **C6**: for every encoding that `from_bytes` accepts, re-encoding the
decoded point with `to_bytes` and decoding again returns the same point;
the identity encodes as the all-zero 33 bytes; and `from_bytes` of the
all-zero encoding succeeds with a point projectively equal to the
identity.  Stated for any prime modulus `p` with `2 < p < 2^263` (the
real proof25519 modulus satisfies both) and any scalar `ORDER`. -/
theorem bp_from_to_bytes_roundtrip (p order : Nat) [Fact (Nat.Prime p)]
    (hp2 : 2 < p) (hp : p < 2 ^ 263) :
    (∀ e P, fromBytes p order e = some P →
      fromBytes p order (toBytes P) = some P) ∧
    toBytes (Point.identity p) = 0 ∧
    (∃ P0, fromBytes p order 0 = some P0 ∧
      pointEqb P0 (Point.identity p) = true) :=
  ⟨fun e P h => bp_roundtrip hp2 hp order e P h,
   bp_toBytes_z0 _ rfl,
   ⟨⟨0, -1, 0⟩, bp_fromBytes_zero hp2 order, bp_eqb_id_of_z0 _ rfl⟩⟩

/-- Witness for C6 at the concrete prime 7 and order 1. -/
theorem bp_from_to_bytes_roundtrip_witness :
    (∀ e P, fromBytes 7 1 e = some P →
      fromBytes 7 1 (toBytes P) = some P) ∧
    toBytes (Point.identity 7) = 0 ∧
    (∃ P0, fromBytes 7 1 0 = some P0 ∧
      pointEqb P0 (Point.identity 7) = true) :=
  bp_from_to_bytes_roundtrip 7 1 (by decide) (by decide)

end C6
